import Mathlib

/-!
# A verification model of `duckno` (`src/duckno.py`)

`DuckNo` is a small key/value store: `set` stores `json.dumps(value)` under a
string key via a `DELETE`+`INSERT` transaction, `get` returns
`json.loads(payload)` or a default, `keys` returns all keys in ascending order,
and the constructor resolves the database location (`:memory:`, explicit file,
directory, bare name).

The embedding below follows the Python source:

* `PyVal` is the dynamic value domain (the spec's closed sum type: null,
  boolean, number, string, sequence, string-keyed mapping), plus `nonJson`
  standing for any object `json.dumps` rejects with `TypeError`.  Numbers are
  modelled as integers (`float` is floating-point and out of scope).
* `dumps`/`loads` model `json.dumps(v, ensure_ascii=False, separators=(",", ":"))`
  and `json.loads` on the compact fragment `dumps` emits, including Python's
  escape table (`\"`, `\\`, `\n`, `\t`, `\r`, `\b`, `\f`, `\u00xx` for other
  control characters) and `dict(pairs)`'s duplicate-key behaviour (`mkDict`).
* `Conn` models the DuckDB connection: committed rows plus the working copy of
  an open transaction; `BEGIN`/`DELETE`/`INSERT`/`COMMIT`/`ROLLBACK` act on it,
  and an injected failure point (`failAt`) lets any of `set`'s four statements
  fail, as a disk/engine error would.
* `DuckNo.init` models `__init__`'s location-resolution policy over an abstract
  filesystem view (`Fs`), including pathlib's lexical path normalization
  (`parsePath`/`strOfPath`: root detection, dropping empty and `"."`
  components) and its `suffix`/`parent`/`/`-join rules; the model starts
  from an empty table (a freshly created database file).
-/

namespace Duckno

/-- Dynamically-typed Python values as passed to the store API.  `nonJson`
stands for any object `json.dumps` rejects (a set, a custom class, ...). -/
inductive PyVal where
  | null
  | bool (b : Bool)
  | int (n : Int)
  | str (s : String)
  | arr (xs : List PyVal)
  | obj (kvs : List (String × PyVal))
  | nonJson (tag : Nat)

/-! ## Serialization: `json.dumps(v, ensure_ascii=False, separators=(",", ":"))` -/

/-- Decimal digit character for `d < 10`. -/
def digitChar (d : Nat) : Char := Char.ofNat (48 + d)

/-- Lowercase hexadecimal digit character for `d < 16`. -/
def hexDigitChar (d : Nat) : Char :=
  Char.ofNat (if d < 10 then 48 + d else 87 + d)

/-- Decimal digits of `n`, most significant first (`repr` of a Python int `≥ 0`). -/
def natDigits (n : Nat) : List Char :=
  if n < 10 then [digitChar n]
  else natDigits (n / 10) ++ [digitChar (n % 10)]
decreasing_by exact Nat.div_lt_self (by omega) (by omega)

/-- Characters of a Python `int`'s decimal form: optional minus sign, digits. -/
def intChars (n : Int) : List Char :=
  if n < 0 then '-' :: natDigits n.natAbs else natDigits n.natAbs

/-- How `json.dumps(..., ensure_ascii=False)` writes one character inside a
string literal: `"` and `\` and the five short control escapes, `\u00xx` for
the remaining control characters, every other character verbatim. -/
def encChar (c : Char) : List Char :=
  if c = '"' then ['\\', '"']
  else if c = '\\' then ['\\', '\\']
  else if c = '\n' then ['\\', 'n']
  else if c = '\t' then ['\\', 't']
  else if c = '\r' then ['\\', 'r']
  else if c = Char.ofNat 8 then ['\\', 'b']
  else if c = Char.ofNat 12 then ['\\', 'f']
  else if c.toNat < 32 then
    ['\\', 'u', '0', '0', hexDigitChar (c.toNat / 16), hexDigitChar (c.toNat % 16)]
  else [c]

/-- Characters of a string literal body: each character escaped, then the
closing quote. -/
def encChars : List Char → List Char
  | [] => ['"']
  | c :: cs => encChar c ++ encChars cs

mutual
/-- The characters `json.dumps` emits in compact form (separators `","`/`":"`,
no whitespace).  `nonJson` never reaches this: `dumps` rejects it first. -/
def encVal : PyVal → List Char
  | .null => "null".data
  | .bool true => "true".data
  | .bool false => "false".data
  | .int n => intChars n
  | .str s => '"' :: encChars s.data
  | .arr [] => ['[', ']']
  | .arr (x :: xs) => '[' :: (encVal x ++ encArrTail xs)
  | .obj [] => ['{', '}']
  | .obj ((k, v) :: ms) =>
    '{' :: ('"' :: (encChars k.data ++ (':' :: (encVal v ++ encObjTail ms))))
  | .nonJson _ => []
/-- After the first array element: `,elem` repeatedly, then `]`. -/
def encArrTail : List PyVal → List Char
  | [] => [']']
  | x :: xs => ',' :: (encVal x ++ encArrTail xs)
/-- After the first object member: `,"key":value` repeatedly, then `}`. -/
def encObjTail : List (String × PyVal) → List Char
  | [] => ['}']
  | (k, v) :: ms =>
    ',' :: ('"' :: (encChars k.data ++ (':' :: (encVal v ++ encObjTail ms))))
end

mutual
/-- `true` iff `json.dumps` accepts the value (no `nonJson` anywhere). -/
def serializableB : PyVal → Bool
  | .null | .bool _ | .int _ | .str _ => true
  | .arr xs => serializableArr xs
  | .obj ms => serializableObj ms
  | .nonJson _ => false
def serializableArr : List PyVal → Bool
  | [] => true
  | x :: xs => serializableB x && serializableArr xs
def serializableObj : List (String × PyVal) → Bool
  | [] => true
  | (_, v) :: ms => serializableB v && serializableObj ms
end

mutual
/-- `true` iff every object in the value has pairwise-distinct keys, i.e. the
value denotes an actual Python structure (a Python `dict` cannot repeat keys). -/
def dictsOkB : PyVal → Bool
  | .arr xs => dictsOkArr xs
  | .obj ms => decide ((ms.map Prod.fst).Nodup) && dictsOkObj ms
  | _ => true
def dictsOkArr : List PyVal → Bool
  | [] => true
  | x :: xs => dictsOkB x && dictsOkArr xs
def dictsOkObj : List (String × PyVal) → Bool
  | [] => true
  | (_, v) :: ms => dictsOkB v && dictsOkObj ms
end

/-- `json.dumps(value, ensure_ascii=False, separators=(",", ":"))`; `none`
models the `TypeError` raised on a non-serializable value. -/
def dumps (v : PyVal) : Option String :=
  if serializableB v then some (String.mk (encVal v)) else none

/-! ## Deserialization: `json.loads` on the fragment `dumps` emits -/

/-- The digit test of the number scanner. -/
def isDigitB (c : Char) : Bool := 48 ≤ c.toNat && c.toNat ≤ 57

/-- Numeric value of a run of decimal digit characters. -/
def digitsVal (ds : List Char) : Nat :=
  ds.foldl (fun a c => 10 * a + (c.toNat - 48)) 0

/-- Scan a nonempty digit run off the front of the input. -/
def scanNat (cs : List Char) : Option (Nat × List Char) :=
  let ds := cs.takeWhile isDigitB
  if ds = [] then none else some (digitsVal ds, cs.dropWhile isDigitB)

/-- Parse a JSON integer: optional minus sign, then a digit run. -/
def parseNum (cs : List Char) : Option (PyVal × List Char) :=
  if cs.head? = some '-' then
    match scanNat cs.tail with
    | some (m, r) => some (.int (-(m : Int)), r)
    | none => none
  else
    match scanNat cs with
    | some (m, r) => some (.int (m : Int), r)
    | none => none

/-- A remainder that cannot extend a parsed value: empty, or starting with one
of the delimiters (`,`, `]`, `}`) that follow a value inside `dumps` output. -/
def delimOk (cs : List Char) : Bool :=
  match cs with
  | [] => true
  | c :: _ => c == ',' || c == ']' || c == '}'

/-- Value of one hexadecimal digit character (either case accepted). -/
def hexVal (c : Char) : Option Nat :=
  if 48 ≤ c.toNat ∧ c.toNat ≤ 57 then some (c.toNat - 48)
  else if 97 ≤ c.toNat ∧ c.toNat ≤ 102 then some (c.toNat - 87)
  else if 65 ≤ c.toNat ∧ c.toNat ≤ 70 then some (c.toNat - 55)
  else none

/-- Parse the body of a string literal (after the opening quote), undoing the
escapes of `encChar`; stops at the closing quote.  Raw control characters are
rejected (strict mode), as is a surrogate `\u` escape. -/
def parseChars : List Char → Option (List Char × List Char)
  | [] => none
  | c :: cs =>
    if c = '"' then some ([], cs)
    else if c = '\\' then
      match cs with
      | [] => none
      | e :: cs2 =>
        if e = '"' then (parseChars cs2).map (fun p => ('"' :: p.1, p.2))
        else if e = '\\' then (parseChars cs2).map (fun p => ('\\' :: p.1, p.2))
        else if e = '/' then (parseChars cs2).map (fun p => ('/' :: p.1, p.2))
        else if e = 'n' then (parseChars cs2).map (fun p => ('\n' :: p.1, p.2))
        else if e = 't' then (parseChars cs2).map (fun p => ('\t' :: p.1, p.2))
        else if e = 'r' then (parseChars cs2).map (fun p => ('\r' :: p.1, p.2))
        else if e = 'b' then (parseChars cs2).map (fun p => (Char.ofNat 8 :: p.1, p.2))
        else if e = 'f' then (parseChars cs2).map (fun p => (Char.ofNat 12 :: p.1, p.2))
        else if e = 'u' then
          match cs2 with
          | h1 :: h2 :: h3 :: h4 :: cs3 =>
            match hexVal h1, hexVal h2, hexVal h3, hexVal h4 with
            | some a, some b, some x, some y =>
              let n := ((a * 16 + b) * 16 + x) * 16 + y
              if n < 55296 then (parseChars cs3).map (fun p => (Char.ofNat n :: p.1, p.2))
              else none
            | _, _, _, _ => none
          | _ => none
        else none
    else if 32 ≤ c.toNat then (parseChars cs).map (fun p => (c :: p.1, p.2))
    else none

/-- Replay `dict(pairs)`: a repeated key keeps its first position, its value is
the one bound last. -/
def insertKV (d : List (String × PyVal)) (k : String) (v : PyVal) :
    List (String × PyVal) :=
  match d with
  | [] => [(k, v)]
  | (k', v') :: rest => if k' = k then (k', v) :: rest else (k', v') :: insertKV rest k v

/-- Build the dictionary a parsed member list denotes. -/
def mkDict (ms : List (String × PyVal)) : List (String × PyVal) :=
  ms.foldl (fun d kv => insertKV d kv.1 kv.2) []

mutual
/-- Recursive-descent parser for the compact JSON `dumps` emits, structural on
a fuel counter (one unit per grammar node). -/
def parseVal : Nat → List Char → Option (PyVal × List Char)
  | 0, _ => none
  | _ + 1, [] => none
  | f + 1, c :: cs =>
    if c = 'n' then
      match cs with
      | 'u' :: 'l' :: 'l' :: r => some (.null, r)
      | _ => none
    else if c = 't' then
      match cs with
      | 'r' :: 'u' :: 'e' :: r => some (.bool true, r)
      | _ => none
    else if c = 'f' then
      match cs with
      | 'a' :: 'l' :: 's' :: 'e' :: r => some (.bool false, r)
      | _ => none
    else if c = '"' then
      match parseChars cs with
      | some (body, r) => some (.str (String.mk body), r)
      | none => none
    else if c = '[' then
      if cs.head? = some ']' then some (.arr [], cs.tail)
      else
        match parseArr f cs with
        | some (xs, r) => some (.arr xs, r)
        | none => none
    else if c = '{' then
      if cs.head? = some '}' then some (.obj [], cs.tail)
      else
        match parseObj f cs with
        | some (ms, r) => some (.obj (mkDict ms), r)
        | none => none
    else parseNum (c :: cs)
/-- One-or-more comma-separated values, consuming the closing `]`. -/
def parseArr : Nat → List Char → Option (List PyVal × List Char)
  | 0, _ => none
  | f + 1, cs =>
    match parseVal f cs with
    | none => none
    | some (v, r) =>
      if r.head? = some ',' then
        match parseArr f r.tail with
        | some (vs, r2) => some (v :: vs, r2)
        | none => none
      else if r.head? = some ']' then some ([v], r.tail)
      else none
/-- One-or-more comma-separated `"key":value` members, consuming the `}`. -/
def parseObj : Nat → List Char → Option (List (String × PyVal) × List Char)
  | 0, _ => none
  | f + 1, cs =>
    if cs.head? = some '"' then
      match parseChars cs.tail with
      | none => none
      | some (kbody, r) =>
        if r.head? = some ':' then
          match parseVal f r.tail with
          | none => none
          | some (v, r2) =>
            if r2.head? = some ',' then
              match parseObj f r2.tail with
              | some (ms, r3) => some ((String.mk kbody, v) :: ms, r3)
              | none => none
            else if r2.head? = some '}' then some ([(String.mk kbody, v)], r2.tail)
            else none
        else none
    else none
end

/-- `json.loads(s)` on the fragment `dumps` emits: the whole input must parse. -/
def loads (s : String) : Option PyVal :=
  match parseVal (s.data.length + 1) s.data with
  | some (v, []) => some v
  | _ => none

/-! ## The store

Error kinds, named as in the spec (§7); the source raises `ValueError` for
`invalidKey`, `TypeError` for `serializationError`, propagates the engine's
exception for `storageError`, and `json.JSONDecodeError` for `corruptRecord`. -/

inductive DuckErr where
  | invalidKey
  | serializationError
  | storageError
  | corruptRecord
deriving DecidableEq, Repr

/-- The DuckDB connection as `set`/`get`/`keys` use it: the committed rows of
the key/value table (`k` primary key, `v` the JSON text), plus the working copy
of an open transaction.  Statements inside a transaction act on the working
copy; `COMMIT` installs it; `ROLLBACK` discards it. -/
structure Conn where
  rows : List (String × String)
  txn : Option (List (String × String))
deriving DecidableEq, Repr

/-- `BEGIN TRANSACTION`. -/
def Conn.beginTxn (c : Conn) : Conn := { c with txn := some c.rows }

/-- `DELETE FROM table WHERE k = ?` inside the open transaction. -/
def Conn.txnDelete (c : Conn) (k : String) : Conn :=
  { c with txn := c.txn.map (fun rs => rs.filter (fun r => !(r.1 == k))) }

/-- `INSERT INTO table (k, v) VALUES (?, ?)` inside the open transaction. -/
def Conn.txnInsert (c : Conn) (k v : String) : Conn :=
  { c with txn := c.txn.map (fun rs => rs ++ [(k, v)]) }

/-- `COMMIT`: install the working copy. -/
def Conn.commit (c : Conn) : Conn := { rows := c.txn.getD c.rows, txn := none }

/-- `ROLLBACK`: discard the working copy, keep the committed rows. -/
def Conn.rollback (c : Conn) : Conn := { c with txn := none }

/-- `SELECT v FROM table WHERE k = ?` + `fetchone()`: a pure read. -/
def Conn.selectOne (c : Conn) (k : String) : Conn × Option String :=
  (c, (c.rows.find? (fun r => r.1 == k)).map (fun r => r.2))

/-- `SELECT k FROM table ORDER BY k` + `fetchall()`: a pure read; the engine
returns the keys sorted ascending (String `≤` is lexicographic code-point
order, matching DuckDB's binary collation of UTF-8 text). -/
def Conn.selectKeysSorted (c : Conn) : Conn × List String :=
  (c, List.insertionSort (fun a b => a ≤ b) (c.rows.map Prod.fst))

/-- A store: the table name, the resolved location (`database` is the string
handed to `duckdb.connect`; `dbFile` is `self._db_file`), and the connection. -/
structure DuckNo where
  table : String
  database : String
  dbFile : Option String
  conn : Conn
deriving DecidableEq, Repr

/-- `DuckNo._validate_key`: `None` means valid; the source raises `ValueError`
(`InvalidKey`) when the argument is not a string or is empty. -/
def validateKey (key : PyVal) : Option DuckErr :=
  match key with
  | .str s => if s = "" then some .invalidKey else none
  | _ => some .invalidKey

/-- `DuckNo.set(key, value)`.  `failAt = some i` makes the `i`-th statement of
the transaction (`0` = `BEGIN`, `1` = `DELETE`, `2` = `INSERT`, `3` = `COMMIT`)
raise an engine error, after which the source runs `ROLLBACK` and re-raises.
Returns the store as left behind, and the error if one was raised. -/
def DuckNo.set (st : DuckNo) (key value : PyVal) (failAt : Option Nat) :
    DuckNo × Option DuckErr :=
  match validateKey key with
  | some e => (st, some e)
  | none =>
    match dumps value with
    | none => (st, some .serializationError)
    | some payload =>
      match key with
      | .str s =>
        if failAt = some 0 then ({ st with conn := st.conn.rollback }, some .storageError)
        else
          let c1 := st.conn.beginTxn
          if failAt = some 1 then ({ st with conn := c1.rollback }, some .storageError)
          else
            let c2 := c1.txnDelete s
            if failAt = some 2 then ({ st with conn := c2.rollback }, some .storageError)
            else
              let c3 := c2.txnInsert s payload
              if failAt = some 3 then ({ st with conn := c3.rollback }, some .storageError)
              else ({ st with conn := c3.commit }, none)
      | _ => (st, some .invalidKey)

/-- `DuckNo.get(key, default)`: validate, select, return the default on a miss,
otherwise `json.loads` the payload (a decode failure propagates). -/
def DuckNo.get (st : DuckNo) (key default : PyVal) : DuckNo × Except DuckErr PyVal :=
  match validateKey key with
  | some e => (st, .error e)
  | none =>
    match key with
    | .str s =>
      let q := st.conn.selectOne s
      match q.2 with
      | none => ({ st with conn := q.1 }, .ok default)
      | some payload =>
        match loads payload with
        | some v => ({ st with conn := q.1 }, .ok v)
        | none => ({ st with conn := q.1 }, .error .corruptRecord)
    | _ => (st, .error .invalidKey)

/-- `DuckNo.keys()`: all keys in ascending order. -/
def DuckNo.keys (st : DuckNo) : DuckNo × List String :=
  let q := st.conn.selectKeysSorted
  ({ st with conn := q.1 }, q.2)

/-- The `database_path` property: the file path, or `None` when in-memory. -/
def DuckNo.databasePath (st : DuckNo) : Option String := st.dbFile

/-! ## Construction: location resolution (`__init__`) -/

/-- The filesystem facts `__init__` consults (`Path.exists`/`Path.is_dir`),
keyed by the normalized string form of the queried path. -/
structure Fs where
  pathExists : String → Bool
  isDir : String → Bool

/-- Directory creations `__init__` performs (`mkdir(parents=True, exist_ok=True)`). -/
inductive FsAction where
  | mkdirParents (dir : String)
deriving DecidableEq, Repr

/-- Split a character list on `'/'`; like `str.split('/')`, components may be
empty. -/
def splitSlash : List Char → List (List Char)
  | [] => [[]]
  | c :: cs =>
    if c = '/' then [] :: splitSlash cs
    else
      match splitSlash cs with
      | comp :: rest => (c :: comp) :: rest
      | [] => [[c]]

/-- The root of a POSIX path as `pathlib` parses it: `"//"` for exactly two
leading slashes (POSIX reserves that form), `"/"` for one or for three and
more, empty for a relative path. -/
def pathRootChars (cs : List Char) : List Char :=
  if cs.take 2 = ['/', '/'] then
    (if cs.take 3 = ['/', '/', '/'] then ['/'] else ['/', '/'])
  else if cs.take 1 = ['/'] then ['/']
  else []

/-- `pathlib` keeps a path component iff it is non-empty and not `"."`. -/
def partOkB (c : List Char) : Bool := !(c.isEmpty || c == ['.'])

/-- A parsed `pathlib.PurePosixPath`: the root and the retained components. -/
structure PurePath where
  root : List Char
  parts : List (List Char)

/-- Parse a path string the way `pathlib.PurePosixPath` does. -/
def parsePath (s : String) : PurePath :=
  { root := pathRootChars s.data,
    parts := (splitSlash s.data).filter partOkB }

/-- Join path components with `'/'` (no leading or trailing separator). -/
def joinParts : List (List Char) → List Char
  | [] => []
  | [a] => a
  | a :: rest => a ++ '/' :: joinParts rest

/-- Append characters to the last component of a component list (the shape
`splitSlash` produces on `joinParts parts ++ t` for slash-free `t`). -/
def appendLast (parts : List (List Char)) (t : List Char) : List (List Char) :=
  match parts with
  | [] => [t]
  | [a] => [a ++ t]
  | a :: rest => a :: appendLast rest t

/-- `str()` of a parsed path: root then components joined with `'/'`; a
rootless empty path renders as `"."`. -/
def strOfPath (p : PurePath) : String :=
  match p.parts with
  | [] => if p.root = [] then "." else String.mk p.root
  | a :: rest => String.mk (p.root ++ joinParts (a :: rest))

/-- `str(pathlib.Path(s))`: the normalized string form — duplicate and
trailing slashes and `"."` components dropped (`".."` is kept; the
normalization is purely lexical). -/
def normStr (s : String) : String := strOfPath (parsePath s)

/-- `pathlib.PurePath.name` as characters: the final retained component. -/
def pathName (s : String) : List Char := ((parsePath s).parts.getLast?).getD []

/-- `pathlib.PurePath.suffix`: the extension of the final component — the part
from the last dot on, empty when that dot is absent, leading, or trailing. -/
def pathSuffix (s : String) : String :=
  let rname := (pathName s).reverse
  match rname.findIdx? (fun c => c == '.') with
  | some j => if 0 < j ∧ j < rname.length - 1 then String.mk ((rname.take (j + 1)).reverse) else ""
  | none => ""

/-- `str(pathlib.Path(s).parent)`: drop the final component (purely lexical —
`".."` components are not resolved). -/
def parentOf (s : String) : String :=
  strOfPath { root := (parsePath s).root, parts := (parsePath s).parts.dropLast }

/-- `str(Path(s) / fname)`: append a file name to the parsed path. -/
def joinFile (s : String) (fname : List Char) : String :=
  strOfPath { root := (parsePath s).root, parts := (parsePath s).parts ++ [fname] }

/-- The location-resolution policy of `__init__` for a non-memory store: the
resolved database file (the `str()` of the `Path` the source builds), and the
directory creations performed.  Mirrors the source branch for branch,
including the (unreachable) `p.suffix in {".db", ".duckdb"}` test inside the
no-suffix branch.  Where the source writes `p` for `Path(db_path)`, its
`str()` is `normStr p`; `Path(str(p) + ".db")` re-parses the appended string,
hence the inner `normStr` in the bare-name branch. -/
def resolveDbFile (fs : Fs) (cwd : String) (dbPath : Option String) :
    String × List FsAction :=
  match dbPath with
  | none => (joinFile cwd ("duckno.db".data), [])
  | some p =>
    if pathSuffix p = "" then
      if fs.pathExists (normStr p) && fs.isDir (normStr p) then
        (joinFile p ("duckno.db".data), [FsAction.mkdirParents (normStr p)])
      else
        ((if pathSuffix p = ".db" ∨ pathSuffix p = ".duckdb" then normStr p
          else normStr (normStr p ++ ".db")),
         if fs.pathExists (parentOf p) then [] else [FsAction.mkdirParents (parentOf p)])
    else
      (normStr p, if fs.pathExists (parentOf p) then [] else [FsAction.mkdirParents (parentOf p)])

/-- `DuckNo.__init__(db_path, memory=..., table_name=...)`.  The model opens a
fresh database, so the table starts empty (`_ensure_schema` creates it). -/
def DuckNo.init (fs : Fs) (cwd : String) (dbPath : Option String) (memory : Bool)
    (tableName : String) : DuckNo :=
  if memory || dbPath == some ":memory:" then
    { table := tableName, database := ":memory:", dbFile := none,
      conn := { rows := [], txn := none } }
  else
    { table := tableName, database := (resolveDbFile fs cwd dbPath).1,
      dbFile := some (resolveDbFile fs cwd dbPath).1,
      conn := { rows := [], txn := none } }

/-- The `DuckNo.in_memory(table_name)` classmethod. -/
def DuckNo.in_memory (fs : Fs) (cwd : String) (tableName : String) : DuckNo :=
  DuckNo.init fs cwd (some ":memory:") true tableName

/-! ## Histories of public-API calls -/

/-- One public-API call (with `set`'s injected engine-failure point). -/
inductive Op where
  | setOp (key value : PyVal) (failAt : Option Nat)
  | getOp (key default : PyVal)
  | keysOp

/-- The store a call leaves behind. -/
def applyOp (st : DuckNo) : Op → DuckNo
  | .setOp k v f => (st.set k v f).1
  | .getOp k d => (st.get k d).1
  | .keysOp => (st.keys).1

/-- Run a sequence of public-API calls. -/
def runOps (st : DuckNo) : List Op → DuckNo
  | [] => st
  | op :: ops => runOps (applyOp st op) ops

/-- Does `set key value failAt` succeed?  (Key valid, value serializable, no
engine failure at statements 0–3; independent of the store state.) -/
def setOk (key : PyVal) (value : PyVal) (failAt : Option Nat) : Bool :=
  (validateKey key).isNone && (dumps value).isSome &&
    (match failAt with | none => true | some i => decide (4 ≤ i))

/-- The contribution of one call to the history of key `k`: the value, when the
call is a `set` of `k` that succeeds. -/
def setOpHit (op : Op) (k : String) : Option PyVal :=
  match op with
  | .setOp (.str s) v f => if s = k ∧ setOk (.str s) v f = true then some v else none
  | _ => none

/-- The value of the last successful `set` for key `k` in a history. -/
def lastSet (ops : List Op) (k : String) : Option PyVal :=
  match ops with
  | [] => none
  | op :: rest =>
    match lastSet rest k with
    | some v => some v
    | none => setOpHit op k

/-- The store after replaying `ops` from a fresh store and then setting `k := v1`. -/
def setOnce (fs : Fs) (cwd : String) (dbp : Option String) (mem : Bool) (tbl : String)
    (ops : List Op) (k : String) (v1 : PyVal) : DuckNo :=
  ((runOps (DuckNo.init fs cwd dbp mem tbl) ops).set (.str k) v1 none).1

/-- The same, after a second `set k := v2`. -/
def setTwice (fs : Fs) (cwd : String) (dbp : Option String) (mem : Bool) (tbl : String)
    (ops : List Op) (k : String) (v1 v2 : PyVal) : DuckNo :=
  ((setOnce fs cwd dbp mem tbl ops k v1).set (.str k) v2 none).1

/-- A filesystem view on which nothing exists (a fresh working directory). -/
def fsEmpty : Fs := ⟨fun _ => false, fun _ => false⟩

/-- The primary-key invariant: at most one record per key. -/
def keysNodup (st : DuckNo) : Prop := (st.conn.rows.map Prod.fst).Nodup

end Duckno

namespace Duckno

/-! ## Lemmas: decimal digits and integers -/

theorem digitChar_toNat (d : Nat) (h : d < 10) : (digitChar d).toNat = 48 + d := by
  interval_cases d <;> decide

theorem digitChar_isDigitB (d : Nat) (h : d < 10) : isDigitB (digitChar d) = true := by
  interval_cases d <;> decide

theorem natDigits_ne_nil (n : Nat) : natDigits n ≠ [] := by
  rw [natDigits]
  split <;> simp

theorem natDigits_all_digits (n : Nat) : ∀ c ∈ natDigits n, isDigitB c = true := by
  induction n using Nat.strong_induction_on with
  | _ n ih =>
    rw [natDigits]
    split
    · intro c hc
      rw [List.mem_singleton] at hc
      subst hc
      exact digitChar_isDigitB n (by omega)
    · intro c hc
      rw [List.mem_append] at hc
      rcases hc with hc | hc
      · exact ih (n / 10) (Nat.div_lt_self (by omega) (by omega)) c hc
      · rw [List.mem_singleton] at hc
        subst hc
        exact digitChar_isDigitB (n % 10) (Nat.mod_lt _ (by omega))

theorem digitsVal_natDigits (n : Nat) : digitsVal (natDigits n) = n := by
  induction n using Nat.strong_induction_on with
  | _ n ih =>
    rw [natDigits]
    split
    · simp [digitsVal, digitChar_toNat n (by omega)]
    · rw [digitsVal, List.foldl_append]
      have h1 : (natDigits (n / 10)).foldl (fun a c => 10 * a + (c.toNat - 48)) 0 = n / 10 :=
        ih (n / 10) (Nat.div_lt_self (by omega) (by omega))
      simp only [h1, List.foldl_cons, List.foldl_nil,
        digitChar_toNat (n % 10) (Nat.mod_lt _ (by omega))]
      omega

theorem delim_head_not_digit {c : Char} {t : List Char} (h : delimOk (c :: t) = true) :
    isDigitB c = false := by
  simp only [delimOk, Bool.or_eq_true, beq_iff_eq] at h
  rcases h with (h | h) | h <;> subst h <;> decide

theorem takeWhile_digits (ds rest : List Char) (hds : ∀ c ∈ ds, isDigitB c = true)
    (hr : delimOk rest = true) :
    (ds ++ rest).takeWhile isDigitB = ds ∧ (ds ++ rest).dropWhile isDigitB = rest := by
  induction ds with
  | nil =>
    cases rest with
    | nil => simp
    | cons c t =>
      have := delim_head_not_digit hr
      simp [List.takeWhile_cons, List.dropWhile_cons, this]
  | cons c ds ih =>
    have hc : isDigitB c = true := hds c (by simp)
    have := ih (fun x hx => hds x (by simp [hx]))
    simp [List.takeWhile_cons, List.dropWhile_cons, hc, this]

theorem scanNat_natDigits (m : Nat) (rest : List Char) (hr : delimOk rest = true) :
    scanNat (natDigits m ++ rest) = some (m, rest) := by
  obtain ⟨h1, h2⟩ := takeWhile_digits (natDigits m) rest (natDigits_all_digits m) hr
  simp only [scanNat, h1, h2, digitsVal_natDigits]
  rw [if_neg (natDigits_ne_nil m)]

theorem natDigits_head (m : Nat) :
    ∃ c t, natDigits m = c :: t ∧ isDigitB c = true := by
  rcases h : natDigits m with _ | ⟨c, t⟩
  · exact absurd h (natDigits_ne_nil m)
  · exact ⟨c, t, rfl, natDigits_all_digits m c (by rw [h]; simp)⟩

theorem digit_ne_starts {c : Char} (h : isDigitB c = true) :
    c ≠ 'n' ∧ c ≠ 't' ∧ c ≠ 'f' ∧ c ≠ '"' ∧ c ≠ '[' ∧ c ≠ '{' ∧ c ≠ '-' ∧ c ≠ ']' ∧ c ≠ '}' := by
  refine ⟨?_, ?_, ?_, ?_, ?_, ?_, ?_, ?_, ?_⟩ <;>
    (intro hc; subst hc; exact absurd h (by decide))

theorem parseNum_intChars (n : Int) (rest : List Char) (hr : delimOk rest = true) :
    parseNum (intChars n ++ rest) = some (.int n, rest) := by
  by_cases hn : n < 0
  · have harg : intChars n ++ rest = '-' :: (natDigits n.natAbs ++ rest) := by
      simp [intChars, hn]
    rw [harg]
    simp only [parseNum, List.head?_cons, List.tail_cons, if_true, eq_self_iff_true,
      scanNat_natDigits n.natAbs rest hr, if_pos trivial]
    have : -((n.natAbs : Nat) : Int) = n := by omega
    rw [this]
  · obtain ⟨c, t, hct, hc⟩ := natDigits_head n.natAbs
    have harg : intChars n ++ rest = c :: (t ++ rest) := by
      simp [intChars, hn, hct]
    have hnat : natDigits n.natAbs ++ rest = c :: (t ++ rest) := by simp [hct]
    have hmin : c ≠ '-' := (digit_ne_starts hc).2.2.2.2.2.2.1
    rw [harg]
    rw [parseNum, if_neg (by simp [hmin]), ← hnat, scanNat_natDigits n.natAbs rest hr]
    have h2 : ((n.natAbs : Nat) : Int) = n := by omega
    simp [h2]

/-! ## Lemmas: string escaping -/

theorem hexVal_hexDigitChar (d : Nat) (h : d < 16) : hexVal (hexDigitChar d) = some d := by
  interval_cases d <;> decide

theorem parseChars_encChar (c : Char) (t : List Char) (p : List Char × List Char)
    (hp : parseChars t = some p) :
    parseChars (encChar c ++ t) = some (c :: p.1, p.2) := by
  rw [encChar]
  by_cases h1 : c = '"'
  · subst h1; simp +decide; rw [parseChars.eq_def]; simp +decide [hp]
  by_cases h2 : c = '\\'
  · subst h2; simp +decide; rw [parseChars.eq_def]; simp +decide [hp]
  by_cases h3 : c = '\n'
  · subst h3; simp +decide; rw [parseChars.eq_def]; simp +decide [hp]
  by_cases h4 : c = '\t'
  · subst h4; simp +decide; rw [parseChars.eq_def]; simp +decide [hp]
  by_cases h5 : c = '\r'
  · subst h5; simp +decide; rw [parseChars.eq_def]; simp +decide [hp]
  by_cases h6 : c = Char.ofNat 8
  · subst h6; simp +decide; rw [parseChars.eq_def]; simp +decide [hp]
  by_cases h7 : c = Char.ofNat 12
  · subst h7; simp +decide; rw [parseChars.eq_def]; simp +decide [hp]
  simp only [if_neg h1, if_neg h2, if_neg h3, if_neg h4, if_neg h5, if_neg h6, if_neg h7]
  by_cases h8 : c.toNat < 32
  · have hhi : c.toNat / 16 < 16 := by omega
    have hlo : c.toNat % 16 < 16 := by omega
    have e0 : hexVal '0' = some 0 := by decide
    simp only [if_pos h8, List.cons_append, List.nil_append]
    rw [parseChars.eq_def]
    simp +decide only [e0, hexVal_hexDigitChar _ hhi, hexVal_hexDigitChar _ hlo]
    rw [if_pos (show ((0 * 16 + 0) * 16 + c.toNat / 16) * 16 + c.toNat % 16 < 55296 by omega)]
    rw [show ((0 * 16 + 0) * 16 + c.toNat / 16) * 16 + c.toNat % 16 = c.toNat by omega]
    rw [hp, Char.ofNat_toNat]
    rfl
  · have h32 : 32 ≤ c.toNat := by omega
    simp only [if_neg h8, List.singleton_append]
    rw [parseChars.eq_def]
    simp [h1, h2, h32, hp]

theorem parseChars_encChars (cs rest : List Char) :
    parseChars (encChars cs ++ rest) = some (cs, rest) := by
  induction cs with
  | nil => rw [encChars]; rw [List.singleton_append, parseChars.eq_def]; simp
  | cons c cs ih =>
    rw [encChars, List.append_assoc]
    exact parseChars_encChar c _ (cs, rest) ih

end Duckno

namespace Duckno

/-! ## Lemmas: the encoder's leading character and lengths -/

theorem strEta (s : String) : String.mk s.data = s := rfl

theorem intChars_head (n : Int) :
    ∃ c t, intChars n = c :: t ∧ (isDigitB c = true ∨ c = '-') := by
  by_cases hn : n < 0
  · exact ⟨'-', natDigits n.natAbs, by simp [intChars, hn], Or.inr rfl⟩
  · obtain ⟨c, t, hct, hc⟩ := natDigits_head n.natAbs
    exact ⟨c, t, by simp [intChars, hn, hct], Or.inl hc⟩

theorem encVal_head (v : PyVal) (hs : serializableB v = true) :
    ∃ c t, encVal v = c :: t ∧
      (isDigitB c = true ∨ c = 'n' ∨ c = 't' ∨ c = 'f' ∨ c = '"' ∨ c = '[' ∨ c = '{' ∨ c = '-') := by
  cases v with
  | null => exact ⟨'n', _, by rw [encVal], by simp⟩
  | bool b =>
    cases b with
    | true => exact ⟨'t', _, by rw [encVal], by simp⟩
    | false => exact ⟨'f', _, by rw [encVal], by simp⟩
  | int n =>
    obtain ⟨c, t, hct, hc⟩ := intChars_head n
    refine ⟨c, t, by rw [encVal, hct], ?_⟩
    rcases hc with hc | hc
    · exact Or.inl hc
    · subst hc; simp
  | str s => exact ⟨'"', _, by rw [encVal], by simp⟩
  | arr xs =>
    cases xs with
    | nil => exact ⟨'[', _, by rw [encVal], by simp⟩
    | cons x xs => exact ⟨'[', _, by rw [encVal], by simp⟩
  | obj ms =>
    cases ms with
    | nil => exact ⟨'{', _, by rw [encVal], by simp⟩
    | cons m ms =>
      obtain ⟨k, v⟩ := m
      exact ⟨'{', _, by rw [encVal], by simp⟩
  | nonJson tag => exact absurd hs (by rw [serializableB]; simp)

theorem head_not_close {c : Char}
    (h : isDigitB c = true ∨ c = 'n' ∨ c = 't' ∨ c = 'f' ∨ c = '"' ∨ c = '[' ∨ c = '{' ∨ c = '-') :
    c ≠ ']' ∧ c ≠ '}' := by
  rcases h with h | h | h | h | h | h | h | h
  · exact ⟨(digit_ne_starts h).2.2.2.2.2.2.2.1, (digit_ne_starts h).2.2.2.2.2.2.2.2⟩
  all_goals subst h
  all_goals exact ⟨by decide, by decide⟩

theorem encChar_length_pos (c : Char) : 1 ≤ (encChar c).length := by
  rw [encChar]
  split_ifs <;> simp

theorem encChars_length_pos (cs : List Char) : 1 ≤ (encChars cs).length := by
  cases cs with
  | nil => rw [encChars]; simp
  | cons c cs =>
    rw [encChars]
    have := encChar_length_pos c
    simp only [List.length_append]
    omega

theorem encArrTail_length_pos (xs : List PyVal) : 1 ≤ (encArrTail xs).length := by
  cases xs with
  | nil => rw [encArrTail]; simp
  | cons x xs => rw [encArrTail]; simp

theorem encObjTail_length_pos (ms : List (String × PyVal)) : 1 ≤ (encObjTail ms).length := by
  cases ms with
  | nil => rw [encObjTail]; simp
  | cons m ms => obtain ⟨k, v⟩ := m; rw [encObjTail]; simp

theorem delimOk_encArrTail (xs : List PyVal) (rest : List Char) :
    delimOk (encArrTail xs ++ rest) = true := by
  cases xs with
  | nil => rw [encArrTail]; rfl
  | cons x xs => rw [encArrTail]; rfl

theorem delimOk_encObjTail (ms : List (String × PyVal)) (rest : List Char) :
    delimOk (encObjTail ms ++ rest) = true := by
  cases ms with
  | nil => rw [encObjTail]; rfl
  | cons m ms => obtain ⟨k, v⟩ := m; rw [encObjTail]; rfl

/-! ## Lemmas: `dict(pairs)` on distinct keys -/

theorem insertKV_of_not_mem (d : List (String × PyVal)) (k : String) (v : PyVal)
    (h : k ∉ d.map Prod.fst) : insertKV d k v = d ++ [(k, v)] := by
  induction d with
  | nil => rfl
  | cons a d ih =>
    obtain ⟨k', v'⟩ := a
    simp only [List.map_cons, List.mem_cons] at h
    push_neg at h
    rw [insertKV, if_neg (fun hh => h.1 hh.symm), ih h.2]
    rfl

theorem mkDict_go (ms acc : List (String × PyVal))
    (h : ((acc ++ ms).map Prod.fst).Nodup) :
    ms.foldl (fun d kv => insertKV d kv.1 kv.2) acc = acc ++ ms := by
  induction ms generalizing acc with
  | nil => simp
  | cons a ms ih =>
    obtain ⟨k, v⟩ := a
    have hk : k ∉ acc.map Prod.fst := by
      intro hmem
      rw [List.map_append, List.nodup_append] at h
      exact h.2.2 hmem (by simp)
    rw [List.foldl_cons]
    have hacc : (((acc ++ [(k, v)]) ++ ms).map Prod.fst).Nodup := by
      rw [List.append_assoc, List.singleton_append]
      exact h
    rw [insertKV_of_not_mem acc k v hk, ih (acc ++ [(k, v)]) hacc]
    simp

theorem mkDict_eq_self (ms : List (String × PyVal)) (h : (ms.map Prod.fst).Nodup) :
    mkDict ms = ms := by
  rw [mkDict, mkDict_go ms [] (by simpa using h)]
  simp

end Duckno

namespace Duckno

theorem parseVal_to_parseNum (f : Nat) (c : Char) (cs : List Char)
    (h : isDigitB c = true ∨ c = '-') :
    parseVal (f + 1) (c :: cs) = parseNum (c :: cs) := by
  have hne : c ≠ 'n' ∧ c ≠ 't' ∧ c ≠ 'f' ∧ c ≠ '"' ∧ c ≠ '[' ∧ c ≠ '{' := by
    rcases h with h | h
    · have := digit_ne_starts h
      exact ⟨this.1, this.2.1, this.2.2.1, this.2.2.2.1, this.2.2.2.2.1, this.2.2.2.2.2.1⟩
    · subst h
      exact ⟨by decide, by decide, by decide, by decide, by decide, by decide⟩
  rw [parseVal.eq_def]
  simp only [if_neg hne.1, if_neg hne.2.1, if_neg hne.2.2.1, if_neg hne.2.2.2.1,
    if_neg hne.2.2.2.2.1, if_neg hne.2.2.2.2.2]

mutual

theorem rtVal : ∀ (f : Nat) (v : PyVal) (rest : List Char),
    serializableB v = true → dictsOkB v = true →
    (encVal v).length < f → delimOk rest = true →
    parseVal f (encVal v ++ rest) = some (v, rest)
  | 0, _, _, _, _, hf, _ => absurd hf (by omega)
  | f + 1, .null, rest, _, _, _, _ => by
    rw [show encVal .null ++ rest = 'n' :: 'u' :: 'l' :: 'l' :: rest from by rw [encVal]; rfl]
    rw [parseVal.eq_def]
    simp +decide
  | f + 1, .bool true, rest, _, _, _, _ => by
    rw [show encVal (.bool true) ++ rest = 't' :: 'r' :: 'u' :: 'e' :: rest from by
      rw [encVal]; rfl]
    rw [parseVal.eq_def]
    simp +decide
  | f + 1, .bool false, rest, _, _, _, _ => by
    rw [show encVal (.bool false) ++ rest = 'f' :: 'a' :: 'l' :: 's' :: 'e' :: rest from by
      rw [encVal]; rfl]
    rw [parseVal.eq_def]
    simp +decide
  | f + 1, .int n, rest, _, _, _, hr => by
    obtain ⟨c, t, hct, hc⟩ := intChars_head n
    have henc : encVal (.int n) ++ rest = c :: (t ++ rest) := by rw [encVal, hct]; rfl
    rw [henc, parseVal_to_parseNum f c _ hc, ← henc,
      show encVal (.int n) = intChars n from by rw [encVal]]
    exact parseNum_intChars n rest hr
  | f + 1, .str s, rest, _, _, _, _ => by
    rw [show encVal (.str s) ++ rest = '"' :: (encChars s.data ++ rest) from by
      rw [encVal]; rfl]
    rw [parseVal.eq_def]
    simp +decide [parseChars_encChars, strEta]
  | f + 1, .arr [], rest, _, _, _, _ => by
    rw [show encVal (.arr []) ++ rest = '[' :: (']' :: rest) from by rw [encVal]; rfl]
    rw [parseVal.eq_def]
    simp +decide
  | f + 1, .arr (x :: xs), rest, hs, hd, hf, hr => by
    have hsx : serializableB x = true ∧ serializableArr xs = true := by
      have h := hs; rw [serializableB, serializableArr, Bool.and_eq_true] at h; exact h
    have hdx : dictsOkB x = true ∧ dictsOkArr xs = true := by
      have h := hd; rw [dictsOkB, dictsOkArr, Bool.and_eq_true] at h; exact h
    have hlen : (encVal (.arr (x :: xs))).length
        = 1 + ((encVal x).length + (encArrTail xs).length) := by
      rw [encVal]
      simp [List.length_append]
      omega
    have hbound : (encVal x).length + (encArrTail xs).length < f := by
      rw [hlen] at hf; omega
    obtain ⟨c, t, hct, hcs⟩ := encVal_head x hsx.1
    have hcc := head_not_close hcs
    have harg : encVal (.arr (x :: xs)) ++ rest
        = '[' :: (encVal x ++ (encArrTail xs ++ rest)) := by
      rw [encVal]
      simp [List.append_assoc]
    have hh : (encVal x ++ (encArrTail xs ++ rest)).head? = some c := by rw [hct]; rfl
    have harr := rtArr f x xs rest hsx.1 hsx.2 hdx.1 hdx.2 hbound hr
    rw [harg, parseVal.eq_def]
    simp +decide [hh, hcc.1, harr]
  | f + 1, .obj [], rest, _, _, _, _ => by
    rw [show encVal (.obj []) ++ rest = '{' :: ('}' :: rest) from by rw [encVal]; rfl]
    rw [parseVal.eq_def]
    simp +decide
  | f + 1, .obj ((k, v) :: ms), rest, hs, hd, hf, hr => by
    have hsv : serializableB v = true ∧ serializableObj ms = true := by
      have h := hs; rw [serializableB, serializableObj, Bool.and_eq_true] at h; exact h
    have hdm : (((k, v) :: ms).map Prod.fst).Nodup ∧
        dictsOkB v = true ∧ dictsOkObj ms = true := by
      have h := hd
      rw [dictsOkB, dictsOkObj, Bool.and_eq_true, Bool.and_eq_true, decide_eq_true_eq] at h
      exact ⟨h.1, h.2.1, h.2.2⟩
    have hlen : (encVal (.obj ((k, v) :: ms))).length
        = 3 + ((encChars k.data).length + ((encVal v).length + (encObjTail ms).length)) := by
      rw [encVal]
      simp [List.length_append]
      omega
    have hbound : (encChars k.data).length + (encVal v).length + (encObjTail ms).length < f := by
      rw [hlen] at hf; omega
    have harg : encVal (.obj ((k, v) :: ms)) ++ rest
        = '{' :: ('"' :: (encChars k.data ++ (':' :: (encVal v ++ (encObjTail ms ++ rest))))) := by
      rw [encVal]
      simp [List.append_assoc]
    have hobj := rtObj f k v ms rest hsv.1 hsv.2 hdm.2.1 hdm.2.2 hbound hr
    rw [harg, parseVal.eq_def]
    simp +decide [hobj, mkDict_eq_self _ hdm.1]
  | f + 1, .nonJson tag, _, hs, _, _, _ => absurd hs (by rw [serializableB]; simp)

theorem rtArr : ∀ (f : Nat) (x : PyVal) (xs : List PyVal) (rest : List Char),
    serializableB x = true → serializableArr xs = true →
    dictsOkB x = true → dictsOkArr xs = true →
    (encVal x).length + (encArrTail xs).length < f → delimOk rest = true →
    parseArr f (encVal x ++ (encArrTail xs ++ rest)) = some (x :: xs, rest)
  | 0, _, _, _, _, _, _, _, hf, _ => absurd hf (by omega)
  | f + 1, x, [], rest, hsx, _, hdx, _, hf, hr => by
    have hbound : (encVal x).length < f := by
      have := encArrTail_length_pos ([] : List PyVal)
      omega
    have h1 := rtVal f x (']' :: rest) hsx hdx hbound rfl
    rw [show encArrTail ([] : List PyVal) ++ rest = ']' :: rest from by rw [encArrTail]; rfl]
    rw [parseArr.eq_def]
    simp +decide [h1]
  | f + 1, x, y :: ys, rest, hsx, hsys, hdx, hdys, hf, hr => by
    have hsy : serializableB y = true ∧ serializableArr ys = true := by
      have h := hsys; rw [serializableArr, Bool.and_eq_true] at h; exact h
    have hdy : dictsOkB y = true ∧ dictsOkArr ys = true := by
      have h := hdys; rw [dictsOkArr, Bool.and_eq_true] at h; exact h
    have hlen : (encArrTail (y :: ys)).length
        = 1 + ((encVal y).length + (encArrTail ys).length) := by
      rw [encArrTail]
      simp [List.length_append]
      omega
    have hb1 : (encVal x).length < f := by
      have := encArrTail_length_pos (y :: ys)
      omega
    have hb2 : (encVal y).length + (encArrTail ys).length < f := by omega
    have htail : encArrTail (y :: ys) ++ rest
        = ',' :: (encVal y ++ (encArrTail ys ++ rest)) := by
      rw [encArrTail]
      simp [List.append_assoc]
    have h1 := rtVal f x (',' :: (encVal y ++ (encArrTail ys ++ rest))) hsx hdx hb1 rfl
    have h2 := rtArr f y ys rest hsy.1 hsy.2 hdy.1 hdy.2 hb2 hr
    rw [htail, parseArr.eq_def]
    simp +decide [h1, h2]

theorem rtObj : ∀ (f : Nat) (k : String) (v : PyVal) (ms : List (String × PyVal))
      (rest : List Char),
    serializableB v = true → serializableObj ms = true →
    dictsOkB v = true → dictsOkObj ms = true →
    (encChars k.data).length + (encVal v).length + (encObjTail ms).length < f →
    delimOk rest = true →
    parseObj f ('"' :: (encChars k.data ++ (':' :: (encVal v ++ (encObjTail ms ++ rest)))))
      = some ((k, v) :: ms, rest)
  | 0, _, _, _, _, _, _, _, _, hf, _ => absurd hf (by omega)
  | f + 1, k, v, [], rest, hsv, _, hdv, _, hf, hr => by
    have hbound : (encVal v).length < f := by
      have h1 := encChars_length_pos k.data
      have h2 := encObjTail_length_pos ([] : List (String × PyVal))
      omega
    have h1 := rtVal f v ('}' :: rest) hsv hdv hbound rfl
    rw [show encObjTail ([] : List (String × PyVal)) ++ rest = '}' :: rest from by
      rw [encObjTail]; rfl]
    rw [parseObj.eq_def]
    simp +decide [parseChars_encChars, h1, strEta]
  | f + 1, k, v, (k2, v2) :: ms2, rest, hsv, hsms, hdv, hdms, hf, hr => by
    have hsv2 : serializableB v2 = true ∧ serializableObj ms2 = true := by
      have h := hsms; rw [serializableObj, Bool.and_eq_true] at h; exact h
    have hdv2 : dictsOkB v2 = true ∧ dictsOkObj ms2 = true := by
      have h := hdms; rw [dictsOkObj, Bool.and_eq_true] at h; exact h
    have hlen : (encObjTail ((k2, v2) :: ms2)).length
        = 3 + ((encChars k2.data).length + ((encVal v2).length + (encObjTail ms2).length)) := by
      rw [encObjTail]
      simp [List.length_append]
      omega
    have hb1 : (encVal v).length < f := by
      have h1 := encChars_length_pos k.data
      have h2 := encObjTail_length_pos ((k2, v2) :: ms2)
      omega
    have hb2 : (encChars k2.data).length + (encVal v2).length + (encObjTail ms2).length < f := by
      omega
    have htail : encObjTail ((k2, v2) :: ms2) ++ rest
        = ',' :: ('"' :: (encChars k2.data ++ (':' :: (encVal v2 ++ (encObjTail ms2 ++ rest))))) := by
      rw [encObjTail]
      simp [List.append_assoc]
    have h1 := rtVal f v
      (',' :: ('"' :: (encChars k2.data ++ (':' :: (encVal v2 ++ (encObjTail ms2 ++ rest))))))
      hsv hdv hb1 rfl
    have h2 := rtObj f k2 v2 ms2 rest hsv2.1 hsv2.2 hdv2.1 hdv2.2 hb2 hr
    rw [htail, parseObj.eq_def]
    simp +decide [parseChars_encChars, h1, h2, strEta]

end

theorem loads_dumps (v : PyVal) (hs : serializableB v = true) (hd : dictsOkB v = true) :
    loads (String.mk (encVal v)) = some v := by
  have h := rtVal ((encVal v).length + 1) v [] hs hd (by omega) rfl
  rw [List.append_nil] at h
  rw [loads]
  simp only [h]

end Duckno

namespace Duckno

/-! ## Lemmas: the table after a `set` -/

theorem find?_filter_self (l : List (String × String)) (k : String) (p : String) :
    List.find? (fun r => r.1 == k) (l.filter (fun r => !(r.1 == k)) ++ [(k, p)])
      = some (k, p) := by
  induction l with
  | nil => simp
  | cons a l ih =>
    by_cases ha : a.1 = k
    · have hb : (a.1 == k) = true := by simp [ha]
      simp [List.filter_cons, hb, ih]
    · have hb : (a.1 == k) = false := by simp [ha]
      simp [List.filter_cons, hb, List.find?_cons, ih]

theorem find?_filter_other (l : List (String × String)) (k s p : String) (h : k ≠ s) :
    List.find? (fun r => r.1 == k) (l.filter (fun r => !(r.1 == s)) ++ [(s, p)])
      = List.find? (fun r => r.1 == k) l := by
  induction l with
  | nil =>
    have hb : (s == k) = false := by simp [Ne.symm h]
    simp [List.find?_cons, hb]
  | cons a l ih =>
    by_cases ha : a.1 = k
    · have has : (a.1 == s) = false := by simp [ha, h]
      have hak : (a.1 == k) = true := by simp [ha]
      simp [List.filter_cons, has, List.find?_cons, hak]
    · by_cases has : a.1 = s
      · have hb : (a.1 == s) = true := by simp [has]
        have hak : (a.1 == k) = false := by simp [ha]
        simp [List.filter_cons, hb, List.find?_cons, hak, ih]
      · have hb : (a.1 == s) = false := by simp [has]
        have hak : (a.1 == k) = false := by simp [ha]
        simp [List.filter_cons, hb, List.find?_cons, hak, ih]

/-- Everything `set` can do, in one statement: fields other than the table are
untouched; the call succeeds exactly when `setOk` says so; a failed call leaves
the committed rows unchanged (the rollback restores them); a successful call
replaces the key's records by the one new row. -/
theorem set_characterize (st : DuckNo) (key v : PyVal) (failAt : Option Nat) :
    (st.set key v failAt).1.table = st.table ∧
    (st.set key v failAt).1.database = st.database ∧
    (st.set key v failAt).1.dbFile = st.dbFile ∧
    ((st.set key v failAt).2 = none ↔ setOk key v failAt = true) ∧
    ((st.set key v failAt).2 ≠ none → (st.set key v failAt).1.conn.rows = st.conn.rows) ∧
    ((st.set key v failAt).2 = none →
      ∃ s, key = .str s ∧ s ≠ "" ∧ serializableB v = true ∧
        (st.set key v failAt).1.conn.rows
          = st.conn.rows.filter (fun r => !(r.1 == s)) ++ [(s, String.mk (encVal v))]) := by
  rcases key with _ | b | n | s | xs | ms | t
  case str =>
    by_cases hs0 : s = ""
    · subst hs0
      simp [DuckNo.set, validateKey, setOk]
    · have hval : validateKey (.str s) = none := by simp [validateKey, hs0]
      rcases hd : dumps v with _ | pl
      · have hser : serializableB v = false := by
          by_contra hc
          simp only [Bool.not_eq_false] at hc
          simp [dumps, hc] at hd
        simp [DuckNo.set, hval, hd, setOk, hser]
      · have hser : serializableB v = true := by
          by_contra hc
          simp only [Bool.not_eq_true] at hc
          simp [dumps, hc] at hd
        have hpl : pl = String.mk (encVal v) := by
          simp [dumps, hser] at hd
          exact hd.symm
        subst hpl
        rcases failAt with _ | i
        · simp [DuckNo.set, hval, hd, setOk, Conn.commit, Conn.beginTxn, Conn.txnDelete,
            Conn.txnInsert, hser, hs0]
        · by_cases hi0 : i = 0
          · subst hi0
            simp [DuckNo.set, hval, hd, setOk, Conn.rollback, hser]
          by_cases hi1 : i = 1
          · subst hi1
            simp [DuckNo.set, hval, hd, setOk, Conn.rollback, Conn.beginTxn, hser]
          by_cases hi2 : i = 2
          · subst hi2
            simp [DuckNo.set, hval, hd, setOk, Conn.rollback, Conn.beginTxn, Conn.txnDelete, hser]
          by_cases hi3 : i = 3
          · subst hi3
            simp [DuckNo.set, hval, hd, setOk, Conn.rollback, Conn.beginTxn, Conn.txnDelete,
              Conn.txnInsert, hser]
          · have hge : 4 ≤ i := by omega
            simp [DuckNo.set, hval, hd, setOk, hi0, hi1, hi2, hi3, hge, Conn.commit,
              Conn.beginTxn, Conn.txnDelete, Conn.txnInsert, hser, hs0]
  all_goals simp [DuckNo.set, validateKey, setOk]

end Duckno

namespace Duckno

/-! ## Lemmas: `get` and `keys` -/

theorem get_frame (st : DuckNo) (key d : PyVal) : (st.get key d).1 = st := by
  rcases key with _ | b | n | s | xs | ms | t
  case str =>
    by_cases hs : s = ""
    · subst hs; rfl
    · have hv : validateKey (.str s) = none := by simp [validateKey, hs]
      simp only [DuckNo.get, hv, Conn.selectOne]
      rcases hfind : (st.conn.rows.find? (fun r => r.1 == s)).map (fun r => r.2) with _ | pl
      · simp [hfind]
      · simp only [hfind]
        rcases loads pl with _ | v <;> rfl
  all_goals rfl

theorem keys_frame (st : DuckNo) : (st.keys).1 = st := rfl

theorem keys_snd (st : DuckNo) :
    (st.keys).2 = List.insertionSort (fun a b => a ≤ b) (st.conn.rows.map Prod.fst) := rfl

theorem get_miss (st : DuckNo) (k : String) (d : PyVal) (hk : k ≠ "")
    (hf : st.conn.rows.find? (fun r => r.1 == k) = none) :
    (st.get (.str k) d).2 = .ok d := by
  have hv : validateKey (.str k) = none := by simp [validateKey, hk]
  simp only [DuckNo.get, hv, Conn.selectOne, hf, Option.map_none']

theorem get_found (st : DuckNo) (k : String) (d : PyVal) (pl : String) (hk : k ≠ "")
    (hf : st.conn.rows.find? (fun r => r.1 == k) = some (k, pl)) :
    (st.get (.str k) d).2
      = (match loads pl with
         | some v => Except.ok v
         | none => Except.error DuckErr.corruptRecord) := by
  have hv : validateKey (.str k) = none := by simp [validateKey, hk]
  simp only [DuckNo.get, hv, Conn.selectOne, hf, Option.map_some']
  rcases loads pl with _ | v <;> rfl

/-! ## Lemmas: construction and histories -/

theorem init_conn (fs : Fs) (cwd : String) (dbPath : Option String) (memory : Bool)
    (tableName : String) :
    (DuckNo.init fs cwd dbPath memory tableName).conn = { rows := [], txn := none } := by
  rw [DuckNo.init]
  split <;> rfl

theorem keysNodup_set (st : DuckNo) (key v : PyVal) (failAt : Option Nat)
    (h : keysNodup st) : keysNodup (st.set key v failAt).1 := by
  have hc := set_characterize st key v failAt
  rcases he : (st.set key v failAt).2 with _ | e
  · obtain ⟨s, _, _, _, hrows⟩ := hc.2.2.2.2.2 he
    rw [keysNodup, hrows]
    have hsub : List.Sublist ((st.conn.rows.filter (fun r => !(r.1 == s))).map Prod.fst)
        (st.conn.rows.map Prod.fst) :=
      (List.filter_sublist _).map Prod.fst
    have hnd : ((st.conn.rows.filter (fun r => !(r.1 == s))).map Prod.fst).Nodup :=
      List.Nodup.sublist hsub h
    have hmem : s ∉ (st.conn.rows.filter (fun r => !(r.1 == s))).map Prod.fst := by
      intro hmem
      obtain ⟨r, hr, hr1⟩ := List.mem_map.mp hmem
      have := List.mem_filter.mp hr
      simp [hr1] at this
    simp [List.nodup_append, hnd, hmem]
  · rw [keysNodup, hc.2.2.2.2.1 (by simp [he])]
    exact h

theorem keysNodup_applyOp (st : DuckNo) (op : Op) (h : keysNodup st) :
    keysNodup (applyOp st op) := by
  rcases op with ⟨key, v, f⟩ | ⟨key, d⟩ | _
  · exact keysNodup_set st key v f h
  · rw [applyOp, get_frame]; exact h
  · rw [applyOp, keys_frame]; exact h

theorem keysNodup_runOps (ops : List Op) (st : DuckNo) (h : keysNodup st) :
    keysNodup (runOps st ops) := by
  induction ops generalizing st with
  | nil => exact h
  | cons op ops ih => exact ih (applyOp st op) (keysNodup_applyOp st op h)

theorem setOpHit_none (op : Op) (k : String)
    (h : ∀ s v f, op = Op.setOp (.str s) v f → ¬(s = k ∧ setOk (.str s) v f = true)) :
    setOpHit op k = none := by
  rcases op with ⟨key, v, f⟩ | ⟨key, d⟩ | _
  · rcases key with _ | b | n | s | xs | ms | t
    case str => simp only [setOpHit]; rw [if_neg (h s v f rfl)]
    all_goals rfl
  · rfl
  · rfl

theorem lastSet_skip (op : Op) (rest : List Op) (k : String)
    (h : ∀ s v f, op = Op.setOp (.str s) v f → ¬(s = k ∧ setOk (.str s) v f = true)) :
    lastSet (op :: rest) k = lastSet rest k := by
  rw [lastSet]
  rcases hl : lastSet rest k with _ | w
  · simp [setOpHit_none op k h]
  · rfl

/-- What a history leaves in the table at key `k`: the payload of the last
successful `set` for `k`, or whatever was there at the start. -/
theorem find_runOps (ops : List Op) (st : DuckNo) (k : String) :
    ((runOps st ops).conn.rows.find? (fun r => r.1 == k)).map (fun r => r.2)
      = (match lastSet ops k with
         | some v => some (String.mk (encVal v))
         | none => (st.conn.rows.find? (fun r => r.1 == k)).map (fun r => r.2)) := by
  induction ops generalizing st with
  | nil => simp [runOps, lastSet]
  | cons op rest ih =>
    rw [runOps]
    rcases op with ⟨key, v, f⟩ | ⟨key, d⟩ | _
    · rw [applyOp]
      by_cases hok : (st.set key v f).2 = none
      · have hchar := set_characterize st key v f
        obtain ⟨s, hkey, hs0, hser, hrows⟩ := hchar.2.2.2.2.2 hok
        have hsetOk : setOk key v f = true := hchar.2.2.2.1.mp hok
        subst hkey
        by_cases hsk : s = k
        · subst hsk
          rw [ih, lastSet]
          rcases hl : lastSet rest s with _ | w
          · simp [hrows, find?_filter_self, setOpHit, hsetOk]
          · rfl
        · have hfind : ((st.set (.str s) v f).1.conn.rows.find? (fun r => r.1 == k)).map
              (fun r => r.2)
              = (st.conn.rows.find? (fun r => r.1 == k)).map (fun r => r.2) := by
            rw [hrows, find?_filter_other st.conn.rows k s _ (fun h => hsk h.symm)]
          rw [ih, hfind, lastSet_skip _ _ _ (by
            intro s' v' f' heq hand
            injection heq with h1 h2 h3
            injection h1 with h1
            exact hsk (h1 ▸ hand.1))]
      · have hchar := set_characterize st key v f
        have hrows : (st.set key v f).1.conn.rows = st.conn.rows :=
          hchar.2.2.2.2.1 hok
        rw [ih, hrows, lastSet_skip _ _ _ (by
          intro s' v' f' heq hand
          injection heq with h1 h2 h3
          subst h1
          subst h2
          subst h3
          exact hok (hchar.2.2.2.1.mpr hand.2))]
    · rw [applyOp, get_frame, ih,
        lastSet_skip _ _ _ (by intro s' v' f' heq hand; cases heq)]
    · rw [applyOp, keys_frame, ih,
        lastSet_skip _ _ _ (by intro s' v' f' heq hand; cases heq)]

/-- A value recorded by `setOpHit` passed `json.dumps`, hence is serializable. -/
theorem setOpHit_serializable (op : Op) (k : String) (v : PyVal)
    (h : setOpHit op k = some v) : serializableB v = true := by
  rcases op with ⟨key, w, f⟩ | ⟨key, d⟩ | _
  · rcases key with _ | b | n | s | xs | ms | t
    case str =>
      simp only [setOpHit] at h
      by_cases hc : s = k ∧ setOk (.str s) w f = true
      · rw [if_pos hc] at h
        injection h with h
        subst h
        have hok := hc.2
        rw [setOk.eq_def, Bool.and_eq_true, Bool.and_eq_true] at hok
        have hd := hok.1.2
        rw [Option.isSome_iff_exists] at hd
        obtain ⟨pl, hpl⟩ := hd
        by_contra hser
        simp only [Bool.not_eq_true] at hser
        simp [dumps, hser] at hpl
      · rw [if_neg hc] at h
        cases h
    all_goals cases h
  · cases h
  · cases h

/-- A value recorded by `lastSet` passed `json.dumps`, hence is serializable. -/
theorem lastSet_serializable (ops : List Op) (k : String) (v : PyVal)
    (h : lastSet ops k = some v) : serializableB v = true := by
  induction ops with
  | nil => cases h
  | cons op rest ih =>
    rw [lastSet] at h
    rcases hl : lastSet rest k with _ | w
    · rw [hl] at h
      exact setOpHit_serializable op k v h
    · rw [hl] at h
      injection h with h
      subst h
      exact ih hl

end Duckno

namespace Duckno

/-! ## Lemmas: the pathlib model -/

theorem splitSlash_no_slash (cs : List Char) (h : '/' ∉ cs) : splitSlash cs = [cs] := by
  induction cs with
  | nil => rfl
  | cons c cs ih =>
    have hc : ¬(c = '/') := by rintro rfl; exact h (List.mem_cons_self _ _)
    have hcs : '/' ∉ cs := fun hm => h (List.mem_cons_of_mem c hm)
    rw [splitSlash, if_neg hc, ih hcs]

theorem splitSlash_slash_cons (a ys : List Char) (h : '/' ∉ a) :
    splitSlash (a ++ '/' :: ys) = a :: splitSlash ys := by
  induction a with
  | nil => simp [splitSlash]
  | cons c a ih =>
    have hc : ¬(c = '/') := by rintro rfl; exact h (List.mem_cons_self _ _)
    have ha : '/' ∉ a := fun hm => h (List.mem_cons_of_mem c hm)
    rw [List.cons_append, splitSlash, if_neg hc, ih ha]

theorem mem_splitSlash_no_slash (cs x : List Char) (hx : x ∈ splitSlash cs) : '/' ∉ x := by
  induction cs generalizing x with
  | nil =>
    rw [splitSlash] at hx
    simp only [List.mem_singleton] at hx
    subst hx
    simp
  | cons c cs ih =>
    by_cases hc : c = '/'
    · rw [splitSlash, if_pos hc] at hx
      rcases List.mem_cons.mp hx with h1 | h1
      · subst h1; simp
      · exact ih x h1
    · rw [splitSlash, if_neg hc] at hx
      rcases hsp : splitSlash cs with _ | ⟨comp, rest⟩
      · rw [hsp] at hx
        simp only [List.mem_singleton] at hx
        subst hx
        intro hm
        simp only [List.mem_singleton] at hm
        exact hc hm.symm
      · rw [hsp] at hx
        rcases List.mem_cons.mp hx with h1 | h1
        · subst h1
          intro hm
          rcases List.mem_cons.mp hm with h2 | h2
          · exact hc h2.symm
          · exact ih comp (by rw [hsp]; exact List.mem_cons_self _ _) h2
        · exact ih x (by rw [hsp]; exact List.mem_cons_of_mem _ h1)

theorem partOkB_iff (x : List Char) : partOkB x = true ↔ (x ≠ [] ∧ x ≠ ['.']) := by
  rw [partOkB]
  simp [List.isEmpty_iff]

theorem parsePath_parts_ok (s : String) (x : List Char) (hx : x ∈ (parsePath s).parts) :
    x ≠ [] ∧ '/' ∉ x ∧ x ≠ ['.'] := by
  have h1 := List.mem_filter.mp hx
  have h2 := (partOkB_iff x).mp h1.2
  exact ⟨h2.1, mem_splitSlash_no_slash s.data x h1.1, h2.2⟩

theorem pathRootChars_cases (cs : List Char) :
    pathRootChars cs = [] ∨ pathRootChars cs = ['/'] ∨ pathRootChars cs = ['/', '/'] := by
  rw [pathRootChars]
  by_cases h2 : cs.take 2 = ['/', '/']
  · rw [if_pos h2]
    by_cases h3 : cs.take 3 = ['/', '/', '/']
    · rw [if_pos h3]; right; left; rfl
    · rw [if_neg h3]; right; right; rfl
  · rw [if_neg h2]
    by_cases h1 : cs.take 1 = ['/']
    · rw [if_pos h1]; right; left; rfl
    · rw [if_neg h1]; left; rfl

theorem pathRootChars_prepend (root : List Char) (c : Char) (X : List Char)
    (hroot : root = [] ∨ root = ['/'] ∨ root = ['/', '/']) (hc : c ≠ '/') :
    pathRootChars (root ++ c :: X) = root := by
  rcases hroot with h | h | h <;> subst h <;> simp [pathRootChars, hc]

theorem splitSlash_root_filter (root ys : List Char)
    (hroot : root = [] ∨ root = ['/'] ∨ root = ['/', '/']) :
    (splitSlash (root ++ ys)).filter partOkB = (splitSlash ys).filter partOkB := by
  rcases hroot with h | h | h <;> subst h
  · rfl
  · show (splitSlash ('/' :: ys)).filter partOkB = _
    rw [splitSlash, if_pos rfl, List.filter_cons_of_neg (by decide)]
  · show (splitSlash ('/' :: '/' :: ys)).filter partOkB = _
    rw [splitSlash, if_pos rfl, splitSlash, if_pos rfl,
      List.filter_cons_of_neg (by decide),
      List.filter_cons_of_neg (by decide)]

theorem splitSlash_joinParts_append (parts : List (List Char)) (t : List Char)
    (hp : ∀ x ∈ parts, '/' ∉ x) (ht : '/' ∉ t) :
    splitSlash (joinParts parts ++ t) = appendLast parts t := by
  induction parts with
  | nil => exact splitSlash_no_slash t ht
  | cons a rest ih =>
    rcases rest with _ | ⟨b, rs⟩
    · show splitSlash (a ++ t) = [a ++ t]
      apply splitSlash_no_slash
      intro hm
      rcases List.mem_append.mp hm with h | h
      · exact hp a (List.mem_cons_self _ _) h
      · exact ht h
    · show splitSlash ((a ++ '/' :: joinParts (b :: rs)) ++ t) = a :: appendLast (b :: rs) t
      rw [List.append_assoc, List.cons_append,
        splitSlash_slash_cons a _ (hp a (List.mem_cons_self _ _)),
        ih (fun x hx => hp x (List.mem_cons_of_mem a hx))]

theorem joinParts_appendLast (parts : List (List Char)) (t : List Char) :
    joinParts (appendLast parts t) = joinParts parts ++ t := by
  induction parts with
  | nil => rfl
  | cons a rest ih =>
    rcases rest with _ | ⟨b, rs⟩
    · rfl
    · show joinParts (a :: appendLast (b :: rs) t) = (a ++ '/' :: joinParts (b :: rs)) ++ t
      have hne : appendLast (b :: rs) t ≠ [] := by
        rcases rs with _ | _ <;> simp [appendLast]
      rcases hq : appendLast (b :: rs) t with _ | ⟨y, ys⟩
      · exact absurd hq hne
      · rw [joinParts, ← hq, ih]
        · simp
        · intro hcon
          exact List.noConfusion hcon

theorem filter_appendLast (parts : List (List Char)) (t : List Char)
    (hp : ∀ x ∈ parts, partOkB x = true) (ht : t ≠ []) (ht2 : t ≠ ['.']) :
    (appendLast parts t).filter partOkB = appendLast parts t := by
  induction parts with
  | nil =>
    show List.filter partOkB [t] = [t]
    rw [List.filter_cons_of_pos ((partOkB_iff t).mpr ⟨ht, ht2⟩)]
    rfl
  | cons a rest ih =>
    rcases rest with _ | ⟨b, rs⟩
    · show List.filter partOkB [a ++ t] = [a ++ t]
      have h1 : a ++ t ≠ [] := by simp [ht]
      have h2 : a ++ t ≠ ['.'] := by
        intro h
        rcases List.append_eq_cons_iff.mp h with ⟨_, ht'⟩ | ⟨a', _, hnil⟩
        · exact ht2 ht'
        · exact ht (List.append_eq_nil.mp hnil.symm).2
      rw [List.filter_cons_of_pos ((partOkB_iff _).mpr ⟨h1, h2⟩)]
      rfl
    · show List.filter partOkB (a :: appendLast (b :: rs) t) = a :: appendLast (b :: rs) t
      rw [List.filter_cons_of_pos (hp a (List.mem_cons_self _ _)),
        ih (fun x hx => hp x (List.mem_cons_of_mem a hx))]

theorem appendLast_ne_nil (parts : List (List Char)) (t : List Char) :
    appendLast parts t ≠ [] := by
  rcases parts with _ | ⟨a, rest⟩
  · simp [appendLast]
  · rcases rest with _ | _ <;> simp [appendLast]

theorem strOfPath_mk_nil (root : List Char) :
    strOfPath ⟨root, []⟩ = if root = [] then "." else String.mk root := rfl

theorem strOfPath_mk_cons (root : List Char) (parts : List (List Char)) (h : parts ≠ []) :
    strOfPath ⟨root, parts⟩ = String.mk (root ++ joinParts parts) := by
  rcases parts with _ | ⟨a, rest⟩
  · exact absurd rfl h
  · rfl

theorem normStr_eq (s : String) :
    normStr s = strOfPath ⟨pathRootChars s.data, (parsePath s).parts⟩ := rfl

theorem mk_append (a b : List Char) : String.mk a ++ String.mk b = String.mk (a ++ b) := rfl

theorem joinParts_cons (a : List Char) (rest : List (List Char)) :
    ∃ R, joinParts (a :: rest) = a ++ R := by
  rcases rest with _ | ⟨b, rs⟩
  · exact ⟨[], by simp [joinParts]⟩
  · exact ⟨'/' :: joinParts (b :: rs), rfl⟩

theorem normStr_root_comp (root t : List Char)
    (hroot : root = [] ∨ root = ['/'] ∨ root = ['/', '/'])
    (ht : '/' ∉ t) (htne : t ≠ []) (htd : t ≠ ['.']) :
    normStr (String.mk (root ++ t)) = String.mk (root ++ t) := by
  rcases htc : t with _ | ⟨c, X⟩
  · exact absurd htc htne
  · subst htc
    have hc : c ≠ '/' := fun h => ht (h ▸ List.mem_cons_self _ _)
    have hparts : (parsePath (String.mk (root ++ c :: X))).parts = [c :: X] := by
      show ((splitSlash ((String.mk (root ++ c :: X)).data)).filter partOkB) = _
      rw [show (String.mk (root ++ c :: X)).data = root ++ c :: X from rfl,
        splitSlash_root_filter root _ hroot,
        splitSlash_no_slash _ ht,
        List.filter_cons_of_pos ((partOkB_iff _).mpr ⟨htne, htd⟩)]
      rfl
    rw [normStr_eq,
      show (String.mk (root ++ c :: X)).data = root ++ c :: X from rfl,
      pathRootChars_prepend root c X hroot hc, hparts,
      strOfPath_mk_cons _ _ (by simp)]
    rfl

theorem normStr_append (s : String) (t : List Char)
    (ht : '/' ∉ t) (htne : t ≠ []) (htd : t ≠ ['.']) :
    normStr (normStr s ++ String.mk t) = normStr s ++ String.mk t := by
  have hroot := pathRootChars_cases s.data
  rcases hparts : (parsePath s).parts with _ | ⟨a, rest⟩
  · rw [normStr_eq s, hparts, strOfPath_mk_nil]
    rcases hroot with hr | hr | hr <;> rw [hr]
    · rw [if_pos rfl]
      have : ("." : String) ++ String.mk t = String.mk ([] ++ '.' :: t) := rfl
      rw [this]
      exact normStr_root_comp [] ('.' :: t) (Or.inl rfl)
        (fun hm => by
          rcases List.mem_cons.mp hm with h | h
          · exact absurd h.symm (by decide)
          · exact ht h)
        (by simp) (by simp [htne])
    · rw [if_neg (by decide), mk_append]
      exact normStr_root_comp ['/'] t (Or.inr (Or.inl rfl)) ht htne htd
    · rw [if_neg (by decide), mk_append]
      exact normStr_root_comp ['/', '/'] t (Or.inr (Or.inr rfl)) ht htne htd
  · have hgood : ∀ x ∈ (parsePath s).parts, x ≠ [] ∧ '/' ∉ x ∧ x ≠ ['.'] :=
      fun x hx => parsePath_parts_ok s x hx
    have hane : a ≠ [] := (hgood a (by rw [hparts]; exact List.mem_cons_self _ _)).1
    have hslash : ∀ x ∈ a :: rest, '/' ∉ x := by
      intro x hx
      exact (hgood x (by rw [hparts]; exact hx)).2.1
    have hok : ∀ x ∈ a :: rest, partOkB x = true := by
      intro x hx
      have h := hgood x (by rw [hparts]; exact hx)
      exact (partOkB_iff x).mpr ⟨h.1, h.2.2⟩
    rw [normStr_eq s, hparts, strOfPath_mk_cons _ _ (by simp), mk_append,
      List.append_assoc]
    obtain ⟨c, a', hac⟩ := List.exists_cons_of_ne_nil hane
    · obtain ⟨R, hR⟩ := joinParts_cons a rest
      have hc : c ≠ '/' := by
        intro h
        exact hslash a (List.mem_cons_self _ _) (by rw [hac, h]; exact List.mem_cons_self _ _)
      have hshape : joinParts (a :: rest) ++ t = c :: (a' ++ R ++ t) := by
        rw [hR, hac]
        simp
      have hparts2 : (parsePath (String.mk (pathRootChars s.data ++ (joinParts (a :: rest) ++ t)))).parts
          = appendLast (a :: rest) t := by
        show ((splitSlash ((String.mk _).data)).filter partOkB) = _
        rw [show (String.mk (pathRootChars s.data ++ (joinParts (a :: rest) ++ t))).data
            = pathRootChars s.data ++ (joinParts (a :: rest) ++ t) from rfl,
          splitSlash_root_filter _ _ hroot,
          splitSlash_joinParts_append _ _ hslash ht,
          filter_appendLast _ _ hok htne htd]
      have hroot2 : pathRootChars (String.mk (pathRootChars s.data ++ (joinParts (a :: rest) ++ t))).data
          = pathRootChars s.data := by
        rw [show (String.mk (pathRootChars s.data ++ (joinParts (a :: rest) ++ t))).data
            = pathRootChars s.data ++ (joinParts (a :: rest) ++ t) from rfl,
          hshape]
        exact pathRootChars_prepend _ c _ hroot hc
      rw [normStr_eq, hroot2, hparts2,
        strOfPath_mk_cons _ _ (appendLast_ne_nil _ _),
        joinParts_appendLast]

theorem normStr_append_db (s : String) :
    normStr (normStr s ++ ".db") = normStr s ++ ".db" :=
  normStr_append s ".db".data (by decide) (by decide) (by decide)

/-! ## Lemmas: resolved locations are never the in-memory sentinel -/

theorem append_ne_memory (s t : String) (hb : t.data.getLast? = some 'b') :
    s ++ t ≠ ":memory:" := by
  intro h
  have hd : (s ++ t).data = (":memory:" : String).data := congrArg String.data h
  rw [String.data_append] at hd
  have h1 : (s.data ++ t.data).getLast? = some 'b' := by
    rw [List.getLast?_append, hb]
    rfl
  rw [hd] at h1
  exact absurd h1 (by decide)

theorem joinParts_concat_getLast (parts : List (List Char)) (x : List Char) (c : Char)
    (hx : x.getLast? = some c) :
    (joinParts (parts ++ [x])).getLast? = some c := by
  induction parts with
  | nil => simpa [joinParts] using hx
  | cons a rest ih =>
    have hne : rest ++ [x] ≠ [] := by simp
    rcases hq : rest ++ [x] with _ | ⟨y, ys⟩
    · exact absurd hq hne
    · show (joinParts (a :: (rest ++ [x]))).getLast? = some c
      rw [hq, joinParts,
        show a ++ '/' :: joinParts (y :: ys) = (a ++ ['/']) ++ joinParts (y :: ys) by simp,
        List.getLast?_append, ← hq, ih]
      · rfl
      · intro hcon
        exact List.noConfusion hcon

theorem joinFile_ne_memory (s : String) (fname : List Char)
    (hb : fname.getLast? = some 'b') : joinFile s fname ≠ ":memory:" := by
  intro h
  rw [joinFile, strOfPath_mk_cons _ _ (by simp)] at h
  have hd : (parsePath s).root ++ joinParts ((parsePath s).parts ++ [fname])
      = (":memory:" : String).data := congrArg String.data h
  have h1 : ((parsePath s).root ++ joinParts ((parsePath s).parts ++ [fname])).getLast?
      = some 'b' := by
    rw [List.getLast?_append, joinParts_concat_getLast _ _ _ hb]
    rfl
  rw [hd] at h1
  exact absurd h1 (by decide)

theorem normStr_memory_suffix (s : String) (h : normStr s = ":memory:") :
    pathSuffix s = "" := by
  have hroot := pathRootChars_cases s.data
  rcases hparts : (parsePath s).parts with _ | ⟨a, rest⟩
  · rw [normStr_eq, hparts] at h
    rcases hroot with hr | hr | hr <;> rw [hr] at h <;>
      exact absurd h (by decide)
  · rw [normStr_eq, hparts, strOfPath_mk_cons _ _ (by simp)] at h
    have hd : pathRootChars s.data ++ joinParts (a :: rest)
        = (":memory:" : String).data := congrArg String.data h
    rcases hroot with hr | hr | hr
    · rw [hr, List.nil_append] at hd
      rcases rest with _ | ⟨b, rs⟩
      · have ha : a = (":memory:" : String).data := hd
        rw [pathSuffix, pathName, hparts]
        rw [show (([a] : List (List Char)).getLast?).getD [] = a from rfl, ha]
        decide
      · have hmem : '/' ∈ a ++ '/' :: joinParts (b :: rs) := by simp
        rw [show joinParts (a :: b :: rs) = a ++ '/' :: joinParts (b :: rs) from rfl] at hd
        rw [hd] at hmem
        exact absurd hmem (by decide)
    · rw [hr] at hd
      have hh := congrArg List.head? hd
      rw [List.cons_append, List.head?_cons] at hh
      exact absurd hh (by decide)
    · rw [hr] at hd
      have hh := congrArg List.head? hd
      rw [List.cons_append, List.head?_cons] at hh
      exact absurd hh (by decide)

theorem resolve_ne_memory (fs : Fs) (cwd : String) (dbp : Option String)
    (h : dbp ≠ some ":memory:") : (resolveDbFile fs cwd dbp).1 ≠ ":memory:" := by
  rcases dbp with _ | p
  · simp only [resolveDbFile]
    exact joinFile_ne_memory cwd _ (by decide)
  · simp only [resolveDbFile]
    by_cases h1 : pathSuffix p = ""
    · rw [if_pos h1]
      by_cases h2 : (fs.pathExists (normStr p) && fs.isDir (normStr p)) = true
      · rw [if_pos h2]
        exact joinFile_ne_memory p _ (by decide)
      · rw [if_neg h2]
        rw [if_neg (show ¬(pathSuffix p = ".db" ∨ pathSuffix p = ".duckdb") by
          rw [h1]; decide)]
        rw [normStr_append_db]
        exact append_ne_memory (normStr p) ".db" (by decide)
    · rw [if_neg h1]
      intro hmem
      exact h1 (normStr_memory_suffix p hmem)

/-! ## Lemmas: key counts through the public `keys()` view -/

theorem count_keys (st : DuckNo) (k : String) :
    List.count k (st.keys).2 = List.count k (st.conn.rows.map Prod.fst) := by
  rw [keys_snd]
  exact (List.perm_insertionSort _ _).count_eq k

theorem notMem_filtered (l : List (String × String)) (k : String) :
    k ∉ (l.filter (fun r => !(r.1 == k))).map Prod.fst := by
  intro hmem
  obtain ⟨r, hr, hr1⟩ := List.mem_map.mp hmem
  have := List.mem_filter.mp hr
  simp [hr1] at this

theorem count_key_filtered_append (l : List (String × String)) (k : String) (p : String) :
    List.count k ((l.filter (fun r => !(r.1 == k)) ++ [(k, p)]).map Prod.fst) = 1 := by
  rw [List.map_append, List.count_append]
  have h0 : List.count k ((l.filter (fun r => !(r.1 == k))).map Prod.fst) = 0 :=
    List.count_eq_zero.mpr (notMem_filtered l k)
  simp [h0]

theorem filter_eq_of_filter_ne (l : List (String × String)) (k : String) (p : String) :
    (l.filter (fun r => !(r.1 == k)) ++ [(k, p)]).filter (fun r => r.1 == k) = [(k, p)] := by
  rw [List.filter_append, List.filter_filter]
  have h0 : l.filter (fun r => (r.1 == k) && !(r.1 == k)) = [] := by
    apply List.filter_eq_nil_iff.mpr
    intro r hr
    simp
  simp [h0]

theorem find_map_some (l : List (String × String)) (k : String) (pl : String)
    (h : (l.find? (fun r => r.1 == k)).map (fun r => r.2) = some pl) :
    l.find? (fun r => r.1 == k) = some (k, pl) := by
  rcases hq : l.find? (fun r => r.1 == k) with _ | r
  · rw [hq] at h
    cases h
  · rw [hq] at h
    injection h with h
    have hk := List.find?_some hq
    obtain ⟨a, b⟩ := r
    simp only at h
    rw [beq_iff_eq] at hk
    simp only at hk
    rw [hq, hk, h]

end Duckno

namespace Duckno

/-! ## The claims -/

/-- C1: for every store state, every non-empty string key `k`, and every
JSON-serializable value `v` (the spec's sum type: `dumps` accepts it and its
objects are genuine dicts), `set(k, v)` succeeds and a subsequent `get(k)`
returns a value structurally equal to `v`. -/
theorem set_get_roundtrip (st : DuckNo) (k : String) (v d : PyVal)
    (hk : k ≠ "") (hs : serializableB v = true) (hd : dictsOkB v = true) :
    (st.set (.str k) v none).2 = none ∧
    ((st.set (.str k) v none).1.get (.str k) d).2 = .ok v := by
  have hchar := set_characterize st (.str k) v none
  have hok : (st.set (.str k) v none).2 = none := by
    rw [hchar.2.2.2.1, setOk.eq_def]
    simp [validateKey, hk, dumps, hs]
  refine ⟨hok, ?_⟩
  obtain ⟨s, hkey, _, _, hrows⟩ := hchar.2.2.2.2.2 hok
  injection hkey with hkey
  subst hkey
  have hfind : (st.set (.str k) v none).1.conn.rows.find? (fun r => r.1 == k)
      = some (k, String.mk (encVal v)) := by
    rw [hrows]
    exact find?_filter_self _ _ _
  rw [get_found _ k d _ hk hfind, loads_dumps v hs hd]

theorem set_get_roundtrip_witness :
    ("k1" ≠ "" ∧
      serializableB (PyVal.obj [("a", PyVal.arr [PyVal.int (-7), PyVal.str "x\n"]),
        ("b", PyVal.null)]) = true ∧
      dictsOkB (PyVal.obj [("a", PyVal.arr [PyVal.int (-7), PyVal.str "x\n"]),
        ("b", PyVal.null)]) = true) ∧
    (((DuckNo.init fsEmpty "/home" none true "duckno_kv").set (.str "k1")
        (PyVal.obj [("a", PyVal.arr [PyVal.int (-7), PyVal.str "x\n"]),
          ("b", PyVal.null)]) none).1.get (.str "k1") PyVal.null).2
      = .ok (PyVal.obj [("a", PyVal.arr [PyVal.int (-7), PyVal.str "x\n"]),
        ("b", PyVal.null)]) :=
  ⟨⟨by decide, rfl, rfl⟩,
   (set_get_roundtrip (DuckNo.init fsEmpty "/home" none true "duckno_kv") "k1"
     (PyVal.obj [("a", PyVal.arr [PyVal.int (-7), PyVal.str "x\n"]), ("b", PyVal.null)])
     PyVal.null (by decide) rfl rfl).2⟩

end Duckno

namespace Duckno

theorem set_ok_of_valid (st : DuckNo) (k : String) (v : PyVal) (hk : k ≠ "")
    (hs : serializableB v = true) : (st.set (.str k) v none).2 = none := by
  rw [(set_characterize st (.str k) v none).2.2.2.1, setOk.eq_def]
  simp [validateKey, hk, dumps, hs]

theorem set_rows_of_valid (st : DuckNo) (k : String) (v : PyVal) (hk : k ≠ "")
    (hs : serializableB v = true) :
    (st.set (.str k) v none).1.conn.rows
      = st.conn.rows.filter (fun r => !(r.1 == k)) ++ [(k, String.mk (encVal v))] := by
  obtain ⟨s, hkey, _, _, hrows⟩ := (set_characterize st (.str k) v none).2.2.2.2.2
    (set_ok_of_valid st k v hk hs)
  injection hkey with hkey
  subst hkey
  exact hrows

/-- C2: every store state reachable through the public API keeps at most one
record per key; `set(k, v1)` then `set(k, v2)` leaves exactly one record for
`k`, holding `v2`; and `keys()` observed between and after the two calls shows
`k` exactly once — never zero or two entries. -/
theorem overwrite_atomicity (fs : Fs) (cwd : String) (dbp : Option String) (mem : Bool)
    (tbl : String) (ops : List Op) (k : String) (v1 v2 d : PyVal)
    (hk : k ≠ "") (h1 : serializableB v1 = true) (h2 : serializableB v2 = true)
    (hd2 : dictsOkB v2 = true) :
    keysNodup (runOps (DuckNo.init fs cwd dbp mem tbl) ops) ∧
    (setTwice fs cwd dbp mem tbl ops k v1 v2).conn.rows.filter (fun r => r.1 == k)
      = [(k, String.mk (encVal v2))] ∧
    ((setTwice fs cwd dbp mem tbl ops k v1 v2).get (.str k) d).2 = .ok v2 ∧
    List.count k ((setOnce fs cwd dbp mem tbl ops k v1).keys).2 = 1 ∧
    List.count k ((setTwice fs cwd dbp mem tbl ops k v1 v2).keys).2 = 1 := by
  have hinv : keysNodup (runOps (DuckNo.init fs cwd dbp mem tbl) ops) := by
    apply keysNodup_runOps
    rw [keysNodup, init_conn]
    exact List.nodup_nil
  have hr1 : (setOnce fs cwd dbp mem tbl ops k v1).conn.rows
      = (runOps (DuckNo.init fs cwd dbp mem tbl) ops).conn.rows.filter
          (fun r => !(r.1 == k)) ++ [(k, String.mk (encVal v1))] := by
    rw [setOnce]
    exact set_rows_of_valid _ k v1 hk h1
  have hr2 : (setTwice fs cwd dbp mem tbl ops k v1 v2).conn.rows
      = (setOnce fs cwd dbp mem tbl ops k v1).conn.rows.filter
          (fun r => !(r.1 == k)) ++ [(k, String.mk (encVal v2))] := by
    rw [setTwice]
    exact set_rows_of_valid _ k v2 hk h2
  refine ⟨hinv, ?_, ?_, ?_, ?_⟩
  · rw [hr2]
    exact filter_eq_of_filter_ne _ _ _
  · have hfind : (setTwice fs cwd dbp mem tbl ops k v1 v2).conn.rows.find?
        (fun r => r.1 == k) = some (k, String.mk (encVal v2)) := by
      rw [hr2]
      exact find?_filter_self _ _ _
    rw [get_found _ k d _ hk hfind, loads_dumps v2 h2 hd2]
  · rw [count_keys, hr1]
    exact count_key_filtered_append _ _ _
  · rw [count_keys, hr2]
    exact count_key_filtered_append _ _ _

theorem overwrite_atomicity_witness :
    ("a" ≠ "" ∧ serializableB (PyVal.int 1) = true ∧ serializableB (PyVal.str "b") = true ∧
      dictsOkB (PyVal.str "b") = true) ∧
    (setTwice fsEmpty "" none true "t" [] "a" (PyVal.int 1) (PyVal.str "b")).conn.rows.filter
      (fun r => r.1 == "a") = [("a", String.mk (encVal (PyVal.str "b")))] ∧
    List.count "a" ((setOnce fsEmpty "" none true "t" [] "a" (PyVal.int 1)).keys).2 = 1 :=
  ⟨⟨by decide, rfl, rfl, rfl⟩,
   (overwrite_atomicity fsEmpty "" none true "t" [] "a" (PyVal.int 1) (PyVal.str "b")
     PyVal.null (by decide) rfl rfl rfl).2.1,
   (overwrite_atomicity fsEmpty "" none true "t" [] "a" (PyVal.int 1) (PyVal.str "b")
     PyVal.null (by decide) rfl rfl rfl).2.2.2.1⟩

/-- C3: a failed `set` — invalid key, non-serializable value (raised before any
I/O), or an engine failure anywhere in the `DELETE`+`INSERT` transaction — is
rolled back in full: the stored mapping, table name, and database file are
exactly as before the call, with no partial delete-without-insert state. -/
theorem set_failure_no_mutation (st : DuckNo) (key v : PyVal) (failAt : Option Nat) :
    ((st.set key v failAt).2 ≠ none →
      (st.set key v failAt).1.conn.rows = st.conn.rows ∧
      (st.set key v failAt).1.table = st.table ∧
      (st.set key v failAt).1.dbFile = st.dbFile) ∧
    (validateKey key = none → dumps v = none →
      st.set key v failAt = (st, some .serializationError)) := by
  have hchar := set_characterize st key v failAt
  constructor
  · intro h
    exact ⟨hchar.2.2.2.2.1 h, hchar.1, hchar.2.2.1⟩
  · intro hval hd
    simp only [DuckNo.set, hval, hd]

theorem set_failure_no_mutation_witness :
    ((((DuckNo.init fsEmpty "" none true "t").set (.str "a") (PyVal.int 1) none).1.set
        (.str "b") (PyVal.int 2) (some 2)).2 ≠ none ∧
      (((DuckNo.init fsEmpty "" none true "t").set (.str "a") (PyVal.int 1) none).1.set
        (.str "b") (PyVal.int 2) (some 2)).1.conn.rows
        = (((DuckNo.init fsEmpty "" none true "t").set (.str "a") (PyVal.int 1)
            none).1).conn.rows) ∧
    ((DuckNo.init fsEmpty "" none true "t").set (.str "c") (PyVal.nonJson 0) none
      = (DuckNo.init fsEmpty "" none true "t", some .serializationError)) :=
  ⟨⟨by decide,
    ((set_failure_no_mutation (((DuckNo.init fsEmpty "" none true "t").set (.str "a")
        (PyVal.int 1) none).1) (.str "b") (PyVal.int 2) (some 2)).1 (by decide)).1⟩,
   (set_failure_no_mutation (DuckNo.init fsEmpty "" none true "t") (.str "c")
     (PyVal.nonJson 0) none).2 rfl rfl⟩

/-- C4: a key that is the empty string or not a string is rejected by both
`set` and `get` with `InvalidKey`, before any I/O, leaving the store exactly
as it was. -/
theorem invalid_key_rejected (st : DuckNo) (key v d : PyVal) (failAt : Option Nat)
    (h : key = .str "" ∨ ∀ s, key ≠ .str s) :
    st.set key v failAt = (st, some .invalidKey) ∧
    st.get key d = (st, .error .invalidKey) := by
  have hval : validateKey key = some .invalidKey := by
    rcases h with h | h
    · subst h
      rfl
    · rcases key with _ | b | n | s | xs | ms | t
      case str => exact absurd rfl (h s)
      all_goals rfl
  constructor
  · simp only [DuckNo.set, hval]
  · simp only [DuckNo.get, hval]

theorem invalid_key_rejected_witness :
    ((PyVal.int 7 = PyVal.str "" ∨ ∀ s, PyVal.int 7 ≠ PyVal.str s) ∧
      (DuckNo.init fsEmpty "" none true "t").set (PyVal.int 7) PyVal.null none
        = (DuckNo.init fsEmpty "" none true "t", some .invalidKey)) ∧
    ((PyVal.str "" = PyVal.str "" ∨ ∀ s, PyVal.str "" ≠ PyVal.str s) ∧
      (DuckNo.init fsEmpty "" none true "t").get (PyVal.str "") PyVal.null
        = (DuckNo.init fsEmpty "" none true "t", .error .invalidKey)) :=
  ⟨⟨Or.inr (fun _ hq => PyVal.noConfusion hq),
    (invalid_key_rejected (DuckNo.init fsEmpty "" none true "t") (PyVal.int 7) PyVal.null
      PyVal.null none (Or.inr (fun _ hq => PyVal.noConfusion hq))).1⟩,
   ⟨Or.inl rfl,
    (invalid_key_rejected (DuckNo.init fsEmpty "" none true "t") (PyVal.str "") PyVal.null
      PyVal.null none (Or.inl rfl)).2⟩⟩

/-- C5: `keys()` returns exactly the stored keys (a permutation of the table's
key column), sorted ascending in lexicographic order, and the empty store
yields the empty sequence without error. -/
theorem keys_sorted_complete (st : DuckNo) :
    List.Sorted (fun a b : String => a ≤ b) (st.keys).2 ∧
    (st.keys).2.Perm (st.conn.rows.map Prod.fst) ∧
    (st.conn.rows = [] → (st.keys).2 = []) := by
  refine ⟨?_, ?_, ?_⟩
  · rw [keys_snd]
    exact List.sorted_insertionSort _ _
  · rw [keys_snd]
    exact List.perm_insertionSort _ _
  · intro h
    rw [keys_snd, h]
    rfl

theorem keys_sorted_complete_witness :
    (DuckNo.init fsEmpty "" none true "t").conn.rows = [] ∧
    ((DuckNo.init fsEmpty "" none true "t").keys).2 = [] :=
  ⟨rfl, (keys_sorted_complete (DuckNo.init fsEmpty "" none true "t")).2.2 rfl⟩

end Duckno

namespace Duckno

/-- C6 (counterexample): the claim's "returns `D` exactly when `k` was never
set" fails when the value stored for `k` equals `D`: after `set("a", null)`,
`get("a", default := null)` returns `null` — structurally equal to the default
— even though `"a"` was set. -/
theorem get_default_iff_cex :
    ¬(((runOps (DuckNo.init fsEmpty "" none true "t")
          [Op.setOp (PyVal.str "a") PyVal.null none]).get (PyVal.str "a") PyVal.null).2
        = Except.ok PyVal.null
      ↔ lastSet [Op.setOp (PyVal.str "a") PyVal.null none] "a" = none) := by
  intro h
  exact Option.noConfusion (show some PyVal.null = none from h.mp rfl)

/-- C6 (amended): `get(k, default := D)` returns `D` whenever `k` was never
successfully set since store creation; when `k` was set, `get` returns the
last successfully-set value (which coincides with `D` exactly when `D` equals
that value). -/
theorem get_default_on_miss (fs : Fs) (cwd : String) (dbp : Option String) (mem : Bool)
    (tbl : String) (ops : List Op) (k : String) (D : PyVal) (hk : k ≠ "") :
    (lastSet ops k = none →
      ((runOps (DuckNo.init fs cwd dbp mem tbl) ops).get (.str k) D).2 = .ok D) ∧
    (∀ v, lastSet ops k = some v → dictsOkB v = true →
      ((runOps (DuckNo.init fs cwd dbp mem tbl) ops).get (.str k) D).2 = .ok v) := by
  have hfind := find_runOps ops (DuckNo.init fs cwd dbp mem tbl) k
  rw [init_conn] at hfind
  constructor
  · intro hnone
    rw [hnone] at hfind
    simp only [List.find?_nil, Option.map_none'] at hfind
    have hfe : (runOps (DuckNo.init fs cwd dbp mem tbl) ops).conn.rows.find?
        (fun r => r.1 == k) = none := by
      rcases hq : (runOps (DuckNo.init fs cwd dbp mem tbl) ops).conn.rows.find?
          (fun r => r.1 == k) with _ | r
      · exact hq
      · rw [hq] at hfind
        cases hfind
    exact get_miss _ k D hk hfe
  · intro v hv hdv
    rw [hv] at hfind
    have hser := lastSet_serializable ops k v hv
    have hfe := find_map_some _ k (String.mk (encVal v)) hfind
    rw [get_found _ k D _ hk hfe, loads_dumps v hser hdv]

theorem get_default_on_miss_witness :
    ("a" ≠ "" ∧ lastSet [Op.setOp (PyVal.str "b") (PyVal.int 5) none] "a" = none) ∧
    ((runOps (DuckNo.init fsEmpty "" none true "t")
        [Op.setOp (PyVal.str "b") (PyVal.int 5) none]).get (PyVal.str "a")
        (PyVal.int 9)).2 = .ok (PyVal.int 9) :=
  ⟨⟨by decide, rfl⟩,
   (get_default_on_miss fsEmpty "" none true "t"
     [Op.setOp (PyVal.str "b") (PyVal.int 5) none] "a" (PyVal.int 9) (by decide)).1 rfl⟩

/-- C7 (counterexample): the path `".db"` has no extension in pathlib's sense
(`suffix` of a dot-file is empty) and names no existing directory, yet — while
it "already ends in `.db`" — the code still appends `.db`: the resolved file is
`".db.db"`, not `".db"` as the claim's exception clause predicts. -/
theorem resolve_dotdb_cex :
    pathSuffix ".db" = "" ∧
    (fsEmpty.pathExists (normStr ".db") && fsEmpty.isDir (normStr ".db")) = false ∧
    (resolveDbFile fsEmpty "/cwd" (some ".db")).1 = ".db.db" ∧
    ".db.db" ≠ ".db" :=
  ⟨by decide, rfl, by decide, by decide⟩

/-- C7 (amended): for every constructor path with no extension (pathlib
`suffix` semantics) that does not name an existing directory, the resolved
database file is always the path — in its pathlib-normalized string form
`str(Path(p))` — with `.db` appended; the `.db`/`.duckdb` exception in the
source is unreachable in this branch, and the parent directory is created
exactly when it does not yet exist. -/
theorem resolve_no_ext_appends_db (fs : Fs) (cwd p : String)
    (h1 : pathSuffix p = "")
    (h2 : (fs.pathExists (normStr p) && fs.isDir (normStr p)) = false) :
    (resolveDbFile fs cwd (some p)).1 = normStr p ++ ".db" ∧
    (resolveDbFile fs cwd (some p)).2
      = (if fs.pathExists (parentOf p) = true then []
         else [FsAction.mkdirParents (parentOf p)]) := by
  rw [resolveDbFile, if_pos h1, if_neg (by simp [h2]),
    if_neg (show ¬(pathSuffix p = ".db" ∨ pathSuffix p = ".duckdb") by rw [h1]; decide)]
  exact ⟨normStr_append_db p, rfl⟩

theorem resolve_no_ext_appends_db_witness :
    (pathSuffix "data/sub" = "" ∧
      (fsEmpty.pathExists (normStr "data/sub") && fsEmpty.isDir (normStr "data/sub")) = false) ∧
    (resolveDbFile fsEmpty "/cwd" (some "data/sub")).1 = normStr "data/sub" ++ ".db" ∧
    (resolveDbFile fsEmpty "/cwd" (some "data/sub")).2
      = [FsAction.mkdirParents (parentOf "data/sub")] ∧
    (resolveDbFile fsEmpty "/cwd" (some "data/")).1 = "data.db" :=
  ⟨⟨by decide, rfl⟩,
   (resolve_no_ext_appends_db fsEmpty "/cwd" "data/sub" (by decide) rfl).1,
   (resolve_no_ext_appends_db fsEmpty "/cwd" "data/sub" (by decide) rfl).2,
   ((resolve_no_ext_appends_db fsEmpty "/cwd" "data/" (by decide) rfl).1).trans (by decide)⟩

/-- C8: a store is in-memory (its connection target is the `":memory:"`
sentinel) exactly when the memory flag is set or the path is the sentinel;
`database_path` is `None` exactly for in-memory stores, and otherwise reports
the resolved file path. -/
theorem init_memory_iff (fs : Fs) (cwd : String) (dbp : Option String) (mem : Bool)
    (tbl : String) :
    ((DuckNo.init fs cwd dbp mem tbl).database = ":memory:"
      ↔ (mem = true ∨ dbp = some ":memory:")) ∧
    ((DuckNo.init fs cwd dbp mem tbl).databasePath = none
      ↔ (DuckNo.init fs cwd dbp mem tbl).database = ":memory:") ∧
    (¬(mem = true ∨ dbp = some ":memory:") →
      (DuckNo.init fs cwd dbp mem tbl).databasePath = some (resolveDbFile fs cwd dbp).1) := by
  by_cases hmem : (mem || dbp == some ":memory:") = true
  · have hcond : mem = true ∨ dbp = some ":memory:" := by
      rw [Bool.or_eq_true, beq_iff_eq] at hmem
      exact hmem
    simp only [DuckNo.init, if_pos hmem, DuckNo.databasePath]
    refine ⟨?_, ?_, ?_⟩
    · exact Iff.intro (fun _ => hcond) (fun _ => by trivial)
    · trivial
    · exact fun hn => absurd hcond hn
  · have hcond : ¬(mem = true ∨ dbp = some ":memory:") := by
      rw [Bool.or_eq_true, beq_iff_eq] at hmem
      exact hmem
    have hne : dbp ≠ some ":memory:" := fun h => hcond (Or.inr h)
    simp only [DuckNo.init, if_neg hmem, DuckNo.databasePath]
    refine ⟨?_, ?_, ?_⟩
    · constructor
      · intro h
        exact absurd h (resolve_ne_memory fs cwd dbp hne)
      · intro h
        exact absurd h hcond
    · constructor
      · intro h
        cases h
      · intro h
        exact absurd h (resolve_ne_memory fs cwd dbp hne)
    · intro _
      trivial

theorem init_memory_iff_witness :
    ¬(false = true ∨ (some "db/x.db" : Option String) = some ":memory:") ∧
    (DuckNo.init fsEmpty "/c" (some "db/x.db") false "t").databasePath
      = some (resolveDbFile fsEmpty "/c" (some "db/x.db")).1 :=
  ⟨by simp,
   (init_memory_iff fsEmpty "/c" (some "db/x.db") false "t").2.2 (by simp)⟩

/-- C9: `get` and `keys` are pure reads — they return the store exactly as it
was, so the stored mapping, resolved database path and table name are all
unchanged. -/
theorem get_keys_pure (st : DuckNo) (key d : PyVal) :
    (st.get key d).1 = st ∧ (st.keys).1 = st :=
  ⟨get_frame st key d, keys_frame st⟩

/-- C10: the `in_memory` classmethod is definitionally the constructor call
`DuckNo(":memory:", memory=True, table_name=t)`, and the store it builds
reports no database path. -/
theorem in_memory_equiv (fs : Fs) (cwd tbl : String) :
    DuckNo.in_memory fs cwd tbl = DuckNo.init fs cwd (some ":memory:") true tbl ∧
    (DuckNo.in_memory fs cwd tbl).databasePath = none :=
  ⟨rfl, rfl⟩

end Duckno
